import Mathlib

/-!
Formal model of the Interactivity plugin core (src/main.ts).

Strings are modelled as `List Char`; JavaScript string primitives
(`split`, `trim`, `startsWith`, `replace` with a global literal pattern,
`slice`) are translated into structurally recursive functions on
character lists so that every definition evaluates inside the kernel.
`String`-level wrappers are provided for readability of the statements.

Modelling conventions, noted where they matter:
* JS `\s` is modelled by `isJsSpace` (ASCII whitespace plus NBSP);
  the more exotic Unicode space code points are omitted.
* `String.prototype.replace` is modelled as literal global replacement;
  `$`-escape sequences in replacement strings are not modelled.
* `Number(...)` is modelled for finite decimal literals (optional sign,
  decimal point, exponent); hexadecimal and `Infinity` forms are omitted.
-/

/-- JS whitespace class `\s`, restricted to the common code points. -/
def isJsSpace (c : Char) : Bool :=
  c = ' ' || c = '\t' || c = '\n' || c = '\r' || c = '\x0b' || c = '\x0c' || c = '\xa0'

/-- JS `String.prototype.trimStart`. -/
def ltrimJs (l : List Char) : List Char := l.dropWhile isJsSpace

/-- JS `String.prototype.trimEnd`. -/
def rtrimJs (l : List Char) : List Char := (l.reverse.dropWhile isJsSpace).reverse

/-- JS `String.prototype.trim`. -/
def trimJs (l : List Char) : List Char := ltrimJs (rtrimJs l)

/-- Helper for `splitOnNl`: prepend a character to the first piece. -/
def consHead (c : Char) : List (List Char) → List (List Char)
  | [] => [[c]]
  | h :: t => (c :: h) :: t

/-- JS `s.split('\n')` on character lists. -/
def splitOnNl : List Char → List (List Char)
  | [] => [[]]
  | c :: rest =>
    if c = '\n' then [] :: splitOnNl rest
    else consHead c (splitOnNl rest)

/-- JS `parts.join('\n')`. -/
def joinNl (ps : List (List Char)) : List Char := List.intercalate ['\n'] ps

/-- Boolean substring test, used for JS `String.prototype.includes`. -/
def isSubstring (pat : List Char) : List Char → Bool
  | [] => pat.isEmpty
  | c :: rest => pat.isPrefixOf (c :: rest) || isSubstring pat rest

/-- Fuel-driven core of `replaceAllL`: replaces left-to-right,
non-overlapping occurrences of `pat` (assumed nonempty) by `repl`. -/
def replaceAllAux (pat repl : List Char) : Nat → List Char → List Char
  | _, [] => []
  | 0, l => l
  | fuel + 1, c :: rest =>
    if pat.isPrefixOf (c :: rest) then
      repl ++ replaceAllAux pat repl fuel ((c :: rest).drop pat.length)
    else c :: replaceAllAux pat repl fuel rest

/-- JS `s.replace(/pat/g, repl)` for a literal pattern `pat`
(replacement treated literally). -/
def replaceAllL (l pat repl : List Char) : List Char :=
  if pat.isEmpty then l else replaceAllAux pat repl l.length l

/-- JS `param.replace(/"""/g, '\\"""')` from `applyShortcuts`
(src/main.ts lines 157 and 161), specialised for reasoning:
each left-to-right, non-overlapping occurrence of `"""` gets a
backslash prefixed. -/
def esc3 : List Char → List Char
  | [] => []
  | [c] => [c]
  | [c, d] => [c, d]
  | c :: d :: e :: rest =>
    if c = '"' ∧ d = '"' ∧ e = '"' then
      '\\' :: '"' :: '"' :: '"' :: esc3 rest
    else c :: esc3 (d :: e :: rest)

/-- Inverse direction of the escape: replace each left-to-right,
non-overlapping occurrence of `\"""` by `"""` (removing the inserted
backslashes). -/
def unesc3 : List Char → List Char
  | [] => []
  | [c] => [c]
  | [c, d] => [c, d]
  | [c, d, e] => [c, d, e]
  | c :: d :: e :: f :: rest =>
    if c = '\\' ∧ d = '"' ∧ e = '"' ∧ f = '"' then
      '"' :: '"' :: '"' :: unesc3 rest
    else c :: unesc3 (d :: e :: f :: rest)

/-- The parameter placeholder token `##param##`. -/
def paramTok : List Char := ['#', '#', 'p', 'a', 'r', 'a', 'm', '#', '#']

/-- Three double quotes. -/
def q3 : List Char := ['"', '"', '"']

/-- Three single quotes. -/
def sq3 : List Char := ['\'', '\'', '\'']

/-- JS `param.replace(/^\n+|\n+$/g, '')`: strip leading and trailing
runs of newline characters (src/main.ts line 146). -/
def trimNl (l : List Char) : List Char :=
  ((l.dropWhile (· = '\n')).reverse.dropWhile (· = '\n')).reverse

/-- Split a shortcut definition at the first `->` occurrence:
models the regex `/(.*?)\s*->\s*(.*)/` match on a newline-free line
(src/main.ts line 130).  Returns the raw parts before and after the
first arrow. -/
def splitAtArrow : List Char → Option (List Char × List Char)
  | [] => none
  | [_] => none
  | c :: d :: rest =>
    if c = '-' ∧ d = '>' then some ([], rest)
    else (splitAtArrow (d :: rest)).map (fun p => (c :: p.1, p.2))

/-- Parse one line of the shortcut settings (src/main.ts lines 127-134):
blank lines and lines without `->` are skipped; the trigger is the text
before the first arrow with trailing whitespace stripped, the template is
the text after it with leading whitespace stripped (the `\s*` in the
regex). -/
def parseShortcutDefL (d : List Char) : Option (List Char × List Char) :=
  if trimJs d = [] then none
  else
    match splitAtArrow d with
    | none => none
    | some (pre, post) => some (rtrimJs pre, ltrimJs post)

/-- All parsed shortcut rules, in declaration order. -/
def parseRulesL (shortcuts : List Char) : List (List Char × List Char) :=
  (splitOnNl shortcuts).filterMap parseShortcutDefL

/-- Body of the matched branch of `applyShortcuts`
(src/main.ts lines 139-168): extract the parameter (remainder of the
first line after the trigger, trim-started, then the remaining lines,
joined, trimmed), escape internal `"""`, and substitute into the
template, wrapping in triple quotes unless the template already
carries them. -/
def expandWithL (lines : List (List Char)) (firstLine trigger template : List Char) :
    List Char :=
  let firstLineRemainder := ltrimJs (firstLine.drop trigger.length)
  let paramLines :=
    (if firstLineRemainder.isEmpty then [] else [firstLineRemainder]) ++ lines.drop 1
  let param := trimNl (trimJs (joinNl paramLines))
  let alreadyQuoted :=
    isSubstring (q3 ++ paramTok) template || isSubstring (sq3 ++ paramTok) template ||
    isSubstring (paramTok ++ q3) template || isSubstring (paramTok ++ sq3) template
  if alreadyQuoted then
    replaceAllL template paramTok (esc3 param)
  else
    let useRaw := isSubstring ('r' :: paramTok) template
    let quotedParam := (if useRaw then ['r'] else []) ++ q3 ++ esc3 param ++ q3
    replaceAllL (replaceAllL template paramTok quotedParam) ('r' :: paramTok) quotedParam

/-- One step of the rule loop in `applyShortcuts` (src/main.ts
lines 127-170): the accumulator is `(matchedShortcutLen, result)`. -/
def shortcutStep (lines : List (List Char)) (firstLine : List Char)
    (acc : Nat × List Char) (r : List Char × List Char) : Nat × List Char :=
  if r.1.isPrefixOf firstLine ∧ acc.1 < r.1.length then
    (r.1.length, expandWithL lines firstLine r.1 r.2)
  else acc

/-- `applyShortcuts` (src/main.ts lines 121-173) on character lists. -/
def applyShortcutsL (content shortcuts : List Char) : List Char :=
  let lines := splitOnNl content
  let firstLine := lines.headD []
  ((splitOnNl shortcuts).foldl
    (fun acc d =>
      match parseShortcutDefL d with
      | none => acc
      | some r => shortcutStep lines firstLine acc r)
    (0, content)).2

/-- String-level wrapper for `applyShortcutsL`. -/
def applyShortcuts (content shortcuts : String) : String :=
  String.mk (applyShortcutsL content.data shortcuts.data)

/-- Predicate on one document line from `findBlockAtCursor`
(src/main.ts lines 86-90): the trimmed line equals the trimmed
delimiter, or starts with it followed by a space (the source repeats
the equality disjunct; the repetition is kept). -/
def isDelimLine (line delimTrimmed : List Char) : Bool :=
  trimJs line = delimTrimmed ||
  (delimTrimmed ++ [' ']).isPrefixOf (trimJs line) ||
  trimJs line = delimTrimmed

/-- Indices of delimiter lines (src/main.ts lines 81-91). `getLine i`
is modelled as `lines.getD i []`. -/
def collectDelims (lines : List (List Char)) (delimiter : List Char) : List Nat :=
  (List.range lines.length).filter
    (fun i => isDelimLine (lines.getD i []) (trimJs delimiter))

/-- Lines strictly between the delimiter pair, joined with newlines
(src/main.ts lines 104-110): `getLine j` for `j` from `a + 1` to
`b - 1`. -/
def betweenContent (lines : List (List Char)) (a b : Nat) : List Char :=
  joinNl ((List.range' (a + 1) (b - (a + 1))).map (fun j => lines.getD j []))

/-- The paired-matching loop of `findBlockAtCursor` (src/main.ts
lines 98-115): walk consecutive delimiter-index pairs and return the
block of the first pair whose inclusive range contains the cursor. -/
def findBlockAux (lines : List (List Char)) (cur : Nat) :
    List Nat → Option (List Char × Nat × Nat)
  | a :: b :: rest =>
    if a ≤ cur ∧ cur ≤ b then some (betweenContent lines a b, a, b)
    else findBlockAux lines cur (b :: rest)
  | _ => none

/-- `findBlockAtCursor` (src/main.ts lines 76-118) on a document given
as a list of lines and a cursor line. -/
def findBlockAtCursorL (lines : List (List Char)) (cursorLine : Nat)
    (delimiter : List Char) : Option (List Char × Nat × Nat) :=
  let delimiterLines := collectDelims lines delimiter
  if delimiterLines.length < 2 then none
  else findBlockAux lines cursorLine delimiterLines

/-- String-level wrapper for `findBlockAtCursorL`. -/
def findBlockAtCursor (docLines : List String) (cursorLine : Nat)
    (delimiter : String) : Option (String × Nat × Nat) :=
  (findBlockAtCursorL (docLines.map String.data) cursorLine delimiter.data).map
    (fun r => (String.mk r.1, r.2))

/-- Decimal number denoting `mant * 10 ^ exp10`; kept unreduced so
that every operation evaluates inside the kernel. -/
structure JsNum where
  mant : ℤ
  exp10 : ℤ
  deriving DecidableEq, Repr

/-- Values produced by the frontmatter extractor. -/
inductive FmValue where
  | str : List Char → FmValue
  | boolean : Bool → FmValue
  | num : JsNum → FmValue
  deriving DecidableEq, Repr

/-- Digit run to a natural number. -/
def natOfDigits (l : List Char) : Nat :=
  l.foldl (fun n c => n * 10 + (c.toNat - 48)) 0

/-- Mantissa of a JS decimal number literal: digits, optionally with one
decimal point; at least one digit overall.  The digits before and after
the point are read as one integer, scaled by the number of fractional
digits. -/
def parseMantissa (l : List Char) : Option JsNum :=
  let ip := l.takeWhile (· ≠ '.')
  let rest := l.dropWhile (· ≠ '.')
  let fp := rest.drop 1
  if fp.contains '.' then none
  else if ¬ (ip.all Char.isDigit ∧ fp.all Char.isDigit) then none
  else if ip = [] ∧ fp = [] then none
  else some ⟨(natOfDigits (ip ++ fp) : ℤ), -(fp.length : ℤ)⟩

/-- Exponent part after `e`/`E`: optional sign, nonempty digit run. -/
def parseExponent (l : List Char) : Option ℤ :=
  match l with
  | '+' :: ds => if ds ≠ [] ∧ ds.all Char.isDigit then some (natOfDigits ds) else none
  | '-' :: ds => if ds ≠ [] ∧ ds.all Char.isDigit then some (-(natOfDigits ds : ℤ)) else none
  | ds => if ds ≠ [] ∧ ds.all Char.isDigit then some (natOfDigits ds) else none

/-- Unsigned JS decimal literal with optional exponent. -/
def parseDec (l : List Char) : Option JsNum :=
  let mant := l.takeWhile (fun c => c ≠ 'e' ∧ c ≠ 'E')
  let expPart := l.dropWhile (fun c => c ≠ 'e' ∧ c ≠ 'E')
  match expPart with
  | [] => parseMantissa mant
  | _ :: ex => do
    let m ← parseMantissa mant
    let k ← parseExponent ex
    pure ⟨m.mant, m.exp10 + k⟩

/-- Model of the JS `Number(value)` conversion used by
`extractFrontmatter` (src/main.ts line 65), restricted to finite
decimal literals: the value is trimmed; an empty trimmed value is 0; a
sign, decimal digits with an optional point, and an optional exponent
are accepted.  Hexadecimal and `Infinity` forms of JS `Number` are not
modelled.  `none` plays the role of `NaN`. -/
def jsNumber (value : List Char) : Option JsNum :=
  let t := trimJs value
  if t = [] then some ⟨0, 0⟩
  else
    match t with
    | '+' :: r => parseDec r
    | '-' :: r => (parseDec r).map (fun q => ⟨-q.mant, q.exp10⟩)
    | _ => parseDec t

/-- Value coercion chain of `extractFrontmatter` (src/main.ts
lines 56-69), applied in source order: quote-unwrapping (double then
single), boolean literals, parseable nonempty numbers, raw string. -/
def coerceValue (value : List Char) : FmValue :=
  if ['"'].isPrefixOf value ∧ value.getLast? = some '"' then
    .str ((value.drop 1).dropLast)
  else if ['\''].isPrefixOf value ∧ value.getLast? = some '\'' then
    .str ((value.drop 1).dropLast)
  else if value = ['t', 'r', 'u', 'e'] then .boolean true
  else if value = ['f', 'a', 'l', 's', 'e'] then .boolean false
  else
    match jsNumber value, value with
    | some q, _ :: _ => .num q
    | _, _ => .str value

/-- JS word character (`\w`). -/
def isWordChar (c : Char) : Bool := c.isAlphanum || c = '_'

/-- Parse one frontmatter line against `/^(\w+):\s*(.*)$/`
(src/main.ts line 53): a nonempty word-character key at the start,
a colon, optional whitespace, then the value. -/
def parseFmLine (line : List Char) : Option (List Char × FmValue) :=
  let key := line.takeWhile isWordChar
  let rest := line.dropWhile isWordChar
  if key = [] then none
  else
    match rest with
    | ':' :: tail => some (key, coerceValue (ltrimJs tail))
    | _ => none

/-- JS object insertion semantics for `result[key] = v`: overwrite in
place when the key exists, else append. -/
def objInsert (m : List (List Char × FmValue)) (k : List Char) (v : FmValue) :
    List (List Char × FmValue) :=
  if m.any (fun p => p.1 = k) then
    m.map (fun p => if p.1 = k then (k, v) else p)
  else m ++ [(k, v)]

/-- Text before the first occurrence of `pat`, if `pat` occurs:
models the lazy group of the header regex `^---\n([\s\S]*?)\n---`
once the fixed prefix has been removed. -/
def takeBeforeMarker (pat : List Char) : List Char → Option (List Char)
  | [] => if pat.isPrefixOf ([] : List Char) then some [] else none
  | c :: rest =>
    if pat.isPrefixOf (c :: rest) then some []
    else (takeBeforeMarker pat rest).map (fun t => c :: t)

/-- `extractFrontmatter` (src/main.ts lines 44-73): the content must
start with `---\n`; the header is everything up to the first later
`\n---`; each inner line matching `key: value` is coerced and stored
with JS object semantics; other lines are skipped. -/
def extractFrontmatterL (content : List Char) : List (List Char × FmValue) :=
  if ['-', '-', '-', '\n'].isPrefixOf content then
    match takeBeforeMarker ['\n', '-', '-', '-'] (content.drop 4) with
    | none => []
    | some yaml =>
      (splitOnNl yaml).foldl
        (fun res line =>
          match parseFmLine line with
          | none => res
          | some (k, v) => objInsert res k v)
        []
  else []

/-- String-level wrapper for `extractFrontmatterL`. -/
def extractFrontmatter (content : String) : List (String × FmValue) :=
  (extractFrontmatterL content.data).map (fun p => (String.mk p.1, p.2))

/-- Lookahead `\n*$` of the decoration regex: the remainder consists
of newlines only. -/
def allNl (l : List Char) : Bool := l.all (· = '\n')

/-- Scanning core of the decoration regex
`(^|[^\x5c])\n(?!\n*$)` applied globally with replacement
`$1\n prefix` (src/main.ts line 568), at positions past the start of
the string: a newline preceded by a non-backslash character and not
followed by a newline run reaching the end gets the prefix inserted
after it; the scan resumes after the matched text. -/
def decorAux (pfx : List Char) : List Char → List Char
  | [] => []
  | [c] => [c]
  | c :: d :: rest =>
    if d = '\n' ∧ c ≠ '\\' ∧ ¬ allNl rest then
      c :: '\n' :: (pfx ++ decorAux pfx rest)
    else c :: decorAux pfx (d :: rest)

/-- Full decoration pass, including the `^` alternative of the regex
at position zero. -/
def decorate (pfx l : List Char) : List Char :=
  if l.headD ' ' = '\n' ∧ ¬ allNl l.tail then
    '\n' :: (pfx ++ decorAux pfx l.tail)
  else decorAux pfx l

/-- JS `data.replace(/\r/g, '')` (src/main.ts line 566). -/
def stripCr (l : List Char) : List Char := l.filter (· ≠ '\r')

/-- JS `data.replace(/\n$/g, '')` (src/main.ts line 572): at most one
trailing newline is removed. -/
def stripOneTrailingNl (l : List Char) : List Char :=
  if l.getLast? = some '\n' then l.dropLast else l

/-- Data after carriage-return removal and optional decoration
(src/main.ts lines 566-569). -/
def cleanedData (data : List Char) (decorateMultiline : Bool) (pfx : List Char) :
    List Char :=
  if decorateMultiline then decorate pfx (stripCr data) else stripCr data

/-- The text handed to `replaceRange` (src/main.ts line 572): a leading
newline, the prefix, and the cleaned data with one trailing newline
stripped. -/
def insertBody (data : List Char) (decorateMultiline : Bool) (pfx : List Char) :
    List Char :=
  '\n' :: (pfx ++ stripOneTrailingNl (cleanedData data decorateMultiline pfx))

/-- The `lines` count of src/main.ts line 571: number of pieces of the
cleaned data split at newlines. -/
def insertLineCount (data : List Char) (decorateMultiline : Bool) (pfx : List Char) :
    Nat :=
  (splitOnNl (cleanedData data decorateMultiline pfx)).length

/-- Editor model: document lines plus a cursor (line, column in
characters). -/
structure EditorState where
  lines : List (List Char)
  cline : Nat
  cch : Nat
  deriving DecidableEq, Repr

/-- Tail part of `spliceLines`: append `after` to the final piece. -/
def spliceEnd (after : List Char) : List (List Char) → List (List Char)
  | [] => [after]
  | [t] => [t ++ after]
  | t :: rest => t :: spliceEnd after rest

/-- Splice the pieces of an inserted text into the split current line:
the first piece continues `before`, the last piece is continued by
`after`. -/
def spliceLines (before after : List Char) : List (List Char) → List (List Char)
  | [] => [before ++ after]
  | [t] => [before ++ t ++ after]
  | t :: rest => (before ++ t) :: spliceEnd after rest

/-- Model of `editor.replaceRange(text, pos)` with a single `from`
position: insert `text` at line `L`, column `ch`. -/
def insertAt (docLines : List (List Char)) (L ch : Nat) (text : List Char) :
    List (List Char) :=
  docLines.take L ++
    spliceLines ((docLines.getD L []).take ch) ((docLines.getD L []).drop ch)
      (splitOnNl text) ++
    docLines.drop (L + 1)

/-- Model of `insertText` (src/main.ts lines 554-577).  Model choices
for the editor host: `replaceRange` leaves a cursor sitting at the
insertion point before the inserted text; `getLine` out of range yields
the empty string; `setCursor` clamps the line to the document and the
column to the line length.  Returns the new editor state and the
notice text when notice mode is on (in which case the editor is
untouched). -/
def insertTextEd (ed : EditorState) (data : List Char) (decorateMultiline : Bool)
    (prependOutput : List Char) (toNotice : Bool) :
    EditorState × Option (List Char) :=
  if toNotice then (ed, some data)
  else
    let body := insertBody data decorateMultiline prependOutput
    let lineCount := insertLineCount data decorateMultiline prependOutput
    let newLines := insertAt ed.lines ed.cline ed.cch body
    let target := ed.cline + lineCount
    let chRaw := (newLines.getD target []).length
    let cl := min target (newLines.length - 1)
    ({ lines := newLines, cline := cl,
       cch := min chRaw (newLines.getD cl []).length }, none)

/-- Outcome of the in-process evaluator `__EVAL` (src/main.ts
line 193), modelled abstractly: a returned value or a thrown value,
each carried as its `toString` text, with `none` for `undefined`.
The JS `null` value (whose `toString` access would itself throw) is
not modelled. -/
inductive EvalOutcome where
  | ret : Option (List Char) → EvalOutcome
  | thrown : Option (List Char) → EvalOutcome

/-- Plugin-level state relevant to result delivery: the document path
recorded at dispatch time (`processingNote`), the currently active
document path, the active editor (when one exists), and the status
bar text. -/
structure PluginState where
  processingNote : List Char
  activeFile : Option (List Char)
  editor : Option EditorState
  statusBar : List Char
  deriving DecidableEq, Repr

/-- Settings fields consumed by the result-delivery paths. -/
structure OutSettings where
  decorateMultiline : Bool
  prependOutput : List Char
  notice : Bool
  linesToSuppress : Nat
  deriving Repr

/-- Basic-mode result handling (src/main.ts lines 318-329): evaluate,
capture a thrown value as the result, and insert it only when the
result is not `undefined` and the recorded document is still active.
The mutation applies to the active editor. -/
def basicExecute (evalFn : List Char → EvalOutcome) (commandText : List Char)
    (s : OutSettings) (st : PluginState) : PluginState :=
  let output : Option (List Char) :=
    match evalFn commandText with
    | .ret v => v
    | .thrown e => e
  match output with
  | none => st
  | some o =>
    if st.activeFile = some st.processingNote then
      match st.editor with
      | none => st
      | some ed =>
        { st with
          editor := some (insertTextEd ed o s.decorateMultiline s.prependOutput s.notice).1,
          statusBar := [] }
    else st

/-- Subprocess output draining (src/main.ts lines 529-543): drop the
first `linesToSuppress` chunks, apply the configured cleanup pattern
(modelled by the abstract function `clean`), and insert only when the
cleaned chunk is nonempty and the recorded document is still active.
Returns the new plugin state and the new `omitted` counter. -/
def processOutput (clean : List Char → List Char) (s : OutSettings)
    (st : PluginState) (omitted : Nat) (dataRaw : List Char) :
    PluginState × Nat :=
  if omitted < s.linesToSuppress then (st, omitted + 1)
  else
    let data := clean dataRaw
    if data ≠ [] ∧ st.activeFile = some st.processingNote then
      match st.editor with
      | none => ({ st with statusBar := [] }, omitted)
      | some ed =>
        ({ st with
           editor := some (insertTextEd ed data s.decorateMultiline s.prependOutput s.notice).1,
           statusBar := [] }, omitted)
    else (st, omitted)

/-- Execution context of the structured protocol envelope. -/
structure MsgContext where
  notePath : List Char
  cursorLine : Nat
  selectedText : Option (List Char)
  deriving DecidableEq, Repr

/-- Structured protocol envelope (src/main.ts lines 33-41). -/
structure PythonMessage where
  command : List Char
  frontmatter : List (List Char × FmValue)
  context : MsgContext
  deriving DecidableEq, Repr

/-- What the continuation of the asynchronous frontmatter read does
with the session: send an envelope, or send nothing. -/
inductive SendOutcome where
  | send : PythonMessage → SendOutcome
  | noSend : SendOutcome
  deriving DecidableEq, Repr

/-- Continuation of `noteContent.then` in the JSON-protocol branch of
the execute command (src/main.ts lines 302-313): build the envelope
from the note content read asynchronously and the state at completion
time, and write it to the session's stdin.  `st` is the plugin state
at the moment the continuation runs. -/
def jsonProtocolContinuation (st : PluginState) (commandText : List Char)
    (selection : List Char) (currentLine : Nat) (content : List Char) :
    SendOutcome :=
  SendOutcome.send
    { command := commandText,
      frontmatter := extractFrontmatterL content,
      context :=
        { notePath := st.activeFile.getD [],
          cursorLine := currentLine,
          selectedText := if selection = [] then none else some selection } }

/-- A session record in `allSubprocesses` (src/main.ts line 197):
either a spawned external process (advanced mode) or the literal
`true` marker used in basic mode (src/main.ts line 550). -/
inductive Session where
  | external : Session
  | basic : Session
  deriving DecidableEq, Repr

/-- The session table, keyed by routing key (document path, `*`, or
`js`), with JS object semantics. -/
abbrev SessionTable := List (List Char × Session)

/-- Lookup in the session table. -/
def tableLookup (t : SessionTable) (k : List Char) : Option Session :=
  (t.find? (fun p => p.1 = k)).map (fun p => p.2)

/-- JS `delete this.allSubprocesses[fileKey]`. -/
def tableErase (t : SessionTable) (k : List Char) : SessionTable :=
  t.filter (fun p => p.1 ≠ k)

/-- JS `this.allSubprocesses[fileKey] = v`. -/
def tableSet (t : SessionTable) (k : List Char) (v : Session) : SessionTable :=
  if t.any (fun p => p.1 = k) then
    t.map (fun p => if p.1 = k then (k, v) else p)
  else t ++ [(k, v)]

/-- Keys of the session table. -/
def tableKeys (t : SessionTable) : List (List Char) := t.map (fun p => p.1)

/-- Observable events of the session lifecycle, in order. -/
inductive SMEvent where
  | wroteStdin : List Char → List Char → SMEvent
  | killedProc : List Char → SMEvent
  | removedRecord : List Char → SMEvent
  | spawnedProc : List Char → SMEvent
  deriving DecidableEq, Repr

/-- Settings fields consumed by the session lifecycle. -/
structure SessionSettings where
  executeOnUnload : List Char
  executeOnLoad : List Char
  deriving Repr

/-- Teardown phase of the restart command (src/main.ts lines 439-456):
unless invoked as a warmup, and when an old session exists in advanced
mode, send the teardown command, kill the process, and delete the
record.  `teardownThrows` and `killThrows` model exceptions from the
stdin write and the kill; they are swallowed by the `try`/`catch` and
the record is removed regardless. -/
def restartTeardown (s : SessionSettings) (advanced warmupOnly : Bool)
    (teardownThrows killThrows : Bool) (key : List Char) (t : SessionTable) :
    SessionTable × List SMEvent :=
  if warmupOnly then (t, [])
  else
    match tableLookup t key with
    | none => (t, [])
    | some _ =>
      if advanced then
        (tableErase t key,
          (if s.executeOnUnload ≠ [] ∧ ¬ teardownThrows then
             [SMEvent.wroteStdin key (s.executeOnUnload ++ ['\n'])]
           else []) ++
          (if ¬ teardownThrows ∧ ¬ killThrows then [SMEvent.killedProc key] else []) ++
          [SMEvent.removedRecord key])
      else (t, [])

/-- The `warmup` method (src/main.ts lines 489-552): a no-op when a
session already exists for the key; otherwise spawn the external
process (advanced) and send the startup command, or record the basic
marker.  `spawnAvailable` models the `require('child_process')`
check. -/
def warmup (s : SessionSettings) (advanced spawnAvailable : Bool) (key : List Char)
    (t : SessionTable) : SessionTable × List SMEvent :=
  match tableLookup t key with
  | some _ => (t, [])
  | none =>
    if advanced then
      if spawnAvailable then
        (tableSet t key Session.external,
          SMEvent.spawnedProc key ::
            (if s.executeOnLoad ≠ [] then
               [SMEvent.wroteStdin key (s.executeOnLoad ++ ['\n'])]
             else []))
      else (t, [])
    else (tableSet t key Session.basic, [])

/-- The full restart command: teardown phase followed by the scheduled
`warmup` call (src/main.ts line 458). -/
def restartCommand (s : SessionSettings) (advanced warmupOnly : Bool)
    (teardownThrows killThrows spawnAvailable : Bool) (key : List Char)
    (t : SessionTable) : SessionTable × List SMEvent :=
  let td := restartTeardown s advanced warmupOnly teardownThrows killThrows key t
  let w := warmup s advanced spawnAvailable key td.1
  (w.1, td.2 ++ w.2)

/-- One session-manager operation, with its environment. -/
inductive SMOp where
  | restart : Bool → Bool → Bool → Bool → List Char → SMOp
  | warm : Bool → List Char → SMOp

/-- Apply one operation to the table. -/
def applyOp (s : SessionSettings) (advanced : Bool) (t : SessionTable) :
    SMOp → SessionTable
  | .restart warmupOnly teardownThrows killThrows spawnAvailable key =>
    (restartCommand s advanced warmupOnly teardownThrows killThrows spawnAvailable key t).1
  | .warm spawnAvailable key => (warmup s advanced spawnAvailable key t).1

/-- Run a sequence of operations from a starting table. -/
def runOps (s : SessionSettings) (advanced : Bool) (t : SessionTable)
    (ops : List SMOp) : SessionTable :=
  ops.foldl (applyOp s advanced) t

/-- Claim-side matching predicate: the rule's trigger is a nonempty
prefix of the first content line. -/
def ruleMatches (fl : List Char) (r : List Char × List Char) : Bool :=
  r.1.isPrefixOf fl && decide (0 < r.1.length)

/-- One step of the claim-side selection: keep the rule with the longer
trigger, the earlier one on ties. -/
def matchStep (acc : Option (List Char × List Char)) (r : List Char × List Char) :
    Option (List Char × List Char) :=
  match acc with
  | none => some r
  | some b => if b.1.length < r.1.length then some r else some b

/-- Claim-side selector, following the specification's wording: among
the rules whose trigger is a nonempty prefix of the first content line,
the one with the greatest trigger length, the first declared on
ties. -/
def longestMatchL (rules : List (List Char × List Char)) (fl : List Char) :
    Option (List Char × List Char) :=
  (rules.filter (ruleMatches fl)).foldl matchStep none

/-- Bar-raising reformulation of the source loop: the rule whose
expansion survives the loop when the running best length starts at
`bar`. -/
def selectRule (fl : List Char) (bar : Nat) :
    List (List Char × List Char) → Option (List Char × List Char)
  | [] => none
  | r :: rest =>
    if r.1.isPrefixOf fl ∧ bar < r.1.length then
      match selectRule fl r.1.length rest with
      | none => some r
      | some q => some q
    else selectRule fl bar rest

lemma foldl_parse_filterMap (lines : List (List Char)) (fl : List Char)
    (ds : List (List Char)) (acc : Nat × List Char) :
    ds.foldl
      (fun acc d =>
        match parseShortcutDefL d with
        | none => acc
        | some r => shortcutStep lines fl acc r) acc =
    (ds.filterMap parseShortcutDefL).foldl (shortcutStep lines fl) acc := by
  induction ds generalizing acc with
  | nil => rfl
  | cons d ds ih =>
    simp only [List.foldl_cons, List.filterMap_cons]
    cases h : parseShortcutDefL d with
    | none => simp [ih]
    | some r => simp [ih]

lemma foldl_shortcutStep_selectRule (lines : List (List Char)) (fl : List Char)
    (rules : List (List Char × List Char)) :
    ∀ (n : Nat) (r : List Char),
      (rules.foldl (shortcutStep lines fl) (n, r)).2 =
        match selectRule fl n rules with
        | none => r
        | some q => expandWithL lines fl q.1 q.2 := by
  induction rules with
  | nil => intro n r; rfl
  | cons t rules ih =>
    intro n r
    by_cases h : t.1.isPrefixOf fl ∧ n < t.1.length
    · simp only [List.foldl_cons, shortcutStep, if_pos h, selectRule, ih]
      cases selectRule fl t.1.length rules <;> simp
    · simp only [List.foldl_cons, shortcutStep, if_neg h, selectRule, ih]

lemma filter_foldl_matchStep_selectRule (fl : List Char)
    (rules : List (List Char × List Char)) :
    ∀ b : List Char × List Char,
      (rules.filter (ruleMatches fl)).foldl matchStep (some b) =
        match selectRule fl b.1.length rules with
        | none => some b
        | some q => some q := by
  induction rules with
  | nil => intro b; rfl
  | cons t rules ih =>
    intro b
    by_cases hm : ruleMatches fl t = true
    · have hpre : t.1.isPrefixOf fl = true := by
        have := hm
        rw [ruleMatches, Bool.and_eq_true] at this
        exact this.1
      by_cases hlt : b.1.length < t.1.length
      · rw [List.filter_cons_of_pos hm, List.foldl_cons]
        have hms : matchStep (some b) t = some t := by
          simp [matchStep, if_pos hlt]
        rw [hms, ih t]
        rw [selectRule, if_pos ⟨hpre, hlt⟩]
        cases selectRule fl t.1.length rules <;> rfl
      · rw [List.filter_cons_of_pos hm, List.foldl_cons]
        have hms : matchStep (some b) t = some b := by
          simp [matchStep, if_neg hlt]
        rw [hms, ih b]
        rw [selectRule, if_neg (fun hc => hlt hc.2)]
    · rw [List.filter_cons_of_neg hm, ih b]
      have hcond : ¬ (t.1.isPrefixOf fl ∧ b.1.length < t.1.length) := by
        intro hc
        apply hm
        rw [ruleMatches, Bool.and_eq_true]
        refine ⟨hc.1, ?_⟩
        by_contra hz
        have h0 : t.1.length = 0 := by
          simpa using hz
        omega
      rw [selectRule, if_neg hcond]

lemma longestMatchL_eq_selectRule (fl : List Char)
    (rules : List (List Char × List Char)) :
    longestMatchL rules fl =
      match selectRule fl 0 rules with
      | none => none
      | some q => some q := by
  induction rules with
  | nil => rfl
  | cons t rules ih =>
    by_cases hm : ruleMatches fl t = true
    · have hpre : t.1.isPrefixOf fl = true := by
        have := hm
        rw [ruleMatches, Bool.and_eq_true] at this
        exact this.1
      have hpos : 0 < t.1.length := by
        have := hm
        rw [ruleMatches, Bool.and_eq_true] at this
        simpa using this.2
      rw [longestMatchL, List.filter_cons_of_pos hm, List.foldl_cons]
      have hms : matchStep none t = some t := rfl
      rw [hms, filter_foldl_matchStep_selectRule fl rules t]
      rw [selectRule, if_pos ⟨hpre, hpos⟩]
      cases selectRule fl t.1.length rules <;> rfl
    · rw [longestMatchL, List.filter_cons_of_neg hm]
      rw [← longestMatchL, ih]
      have hcond : ¬ (t.1.isPrefixOf fl ∧ 0 < t.1.length) := by
        intro hc
        apply hm
        rw [ruleMatches, Bool.and_eq_true]
        exact ⟨hc.1, by simpa using hc.2⟩
      rw [selectRule, if_neg hcond]

lemma foldl_matchStep_mem (l : List (List Char × List Char)) :
    ∀ (acc : Option (List Char × List Char)) (m : List Char × List Char),
      l.foldl matchStep acc = some m → acc = some m ∨ m ∈ l := by
  induction l with
  | nil => intro acc m h; exact Or.inl h
  | cons r l ih =>
    intro acc m h
    rw [List.foldl_cons] at h
    rcases ih (matchStep acc r) m h with h1 | h1
    · cases acc with
      | none =>
        simp only [matchStep] at h1
        right
        rw [← Option.some_inj.mp h1]
        exact List.mem_cons_self r l
      | some b =>
        simp only [matchStep] at h1
        by_cases hlt : b.1.length < r.1.length
        · rw [if_pos hlt] at h1
          right
          rw [← Option.some_inj.mp h1]
          exact List.mem_cons_self r l
        · rw [if_neg hlt] at h1
          exact Or.inl h1
    · exact Or.inr (List.mem_cons_of_mem r h1)

lemma matchStep_grows (acc : Option (List Char × List Char))
    (r b' : List Char × List Char) (h : matchStep acc r = some b') :
    r.1.length ≤ b'.1.length ∧ ∀ b, acc = some b → b.1.length ≤ b'.1.length := by
  cases acc with
  | none =>
    simp only [matchStep] at h
    injection h with h
    subst h
    exact ⟨Nat.le_refl _, fun b hb => by cases hb⟩
  | some b0 =>
    simp only [matchStep] at h
    by_cases hlt : b0.1.length < r.1.length
    · rw [if_pos hlt] at h
      injection h with h
      subst h
      refine ⟨Nat.le_refl _, fun b hb => ?_⟩
      injection hb with hb
      subst hb
      omega
    · rw [if_neg hlt] at h
      injection h with h
      subst h
      refine ⟨Nat.le_of_not_lt hlt, fun b hb => ?_⟩
      injection hb with hb
      subst hb
      exact Nat.le_refl _

lemma foldl_matchStep_bound (l : List (List Char × List Char)) :
    ∀ (acc : Option (List Char × List Char)) (m : List Char × List Char),
      l.foldl matchStep acc = some m →
        (∀ r ∈ l, r.1.length ≤ m.1.length) ∧
        (∀ b, acc = some b → b.1.length ≤ m.1.length) := by
  induction l with
  | nil =>
    intro acc m h
    refine ⟨?_, ?_⟩
    · intro r hr; cases hr
    · intro b hb
      simp only [List.foldl_nil] at h
      rw [h] at hb
      injection hb with hb
      rw [hb]
  | cons r l ih =>
    intro acc m h
    rw [List.foldl_cons] at h
    obtain ⟨hl, hacc⟩ := ih (matchStep acc r) m h
    cases hstep : matchStep acc r with
    | none =>
      exfalso
      cases acc with
      | none => simp [matchStep] at hstep
      | some b0 =>
        simp only [matchStep] at hstep
        by_cases hlt : b0.1.length < r.1.length
        · rw [if_pos hlt] at hstep; cases hstep
        · rw [if_neg hlt] at hstep; cases hstep
    | some b' =>
      obtain ⟨hrb, hbb⟩ := matchStep_grows acc r b' hstep
      have hb'm : b'.1.length ≤ m.1.length := hacc b' hstep
      constructor
      · intro x hx
        rcases List.mem_cons.mp hx with hx | hx
        · rw [hx]; omega
        · exact hl x hx
      · intro b hb
        have := hbb b hb
        omega

lemma applyShortcutsL_eq_longestMatch (content shortcuts : List Char) :
    applyShortcutsL content shortcuts =
      match longestMatchL (parseRulesL shortcuts) ((splitOnNl content).headD []) with
      | none => content
      | some q =>
        expandWithL (splitOnNl content) ((splitOnNl content).headD []) q.1 q.2 := by
  rw [applyShortcutsL]
  rw [foldl_parse_filterMap (splitOnNl content) ((splitOnNl content).headD []) (splitOnNl shortcuts) (0, content)]
  rw [← parseRulesL]
  rw [foldl_shortcutStep_selectRule (splitOnNl content) ((splitOnNl content).headD []) (parseRulesL shortcuts) 0 content]
  rw [longestMatchL_eq_selectRule ((splitOnNl content).headD []) (parseRulesL shortcuts)]
  cases selectRule ((splitOnNl content).headD []) 0 (parseRulesL shortcuts) <;> rfl

lemma longestMatchL_spec (rules : List (List Char × List Char)) (fl : List Char)
    (t tp : List Char) (h : longestMatchL rules fl = some (t, tp)) :
    (t, tp) ∈ rules ∧ t.isPrefixOf fl = true ∧ 0 < t.length ∧
      ∀ r ∈ rules, r.1.isPrefixOf fl = true → r.1.length ≤ t.length := by
  rw [longestMatchL] at h
  have hmem := foldl_matchStep_mem (rules.filter (ruleMatches fl)) none (t, tp) h
  rcases hmem with hmem | hmem
  · cases hmem
  · have hin := List.mem_filter.mp hmem
    have hok := hin.2
    rw [ruleMatches, Bool.and_eq_true] at hok
    refine ⟨hin.1, hok.1, by simpa using hok.2, ?_⟩
    intro r hr hpre
    by_cases hz : 0 < r.1.length
    · have hrf : r ∈ rules.filter (ruleMatches fl) := by
        refine List.mem_filter.mpr ⟨hr, ?_⟩
        rw [ruleMatches, Bool.and_eq_true]
        exact ⟨hpre, by simpa using hz⟩
      exact (foldl_matchStep_bound (rules.filter (ruleMatches fl)) none (t, tp) h).1 r hrf
    · omega

/-- C1 (amended): for every content and rule set, when some rule's
trigger is a nonempty prefix of the first content line, `applyShortcuts`
returns the expansion of the rule with the longest such trigger (first
declared on ties), which is maximal among all matching triggers; when no
rule has a nonempty matching trigger, the content is returned unchanged;
and the single rule `@ -> chat(##param##)` on `"@ hello\nworld"` yields
`chat("""hello\nworld""")`. -/
theorem applyShortcuts_longest_trigger_wins :
    (∀ content shortcuts : List Char,
      (longestMatchL (parseRulesL shortcuts) ((splitOnNl content).headD []) = none →
         applyShortcutsL content shortcuts = content) ∧
      (∀ t tp : List Char,
         longestMatchL (parseRulesL shortcuts) ((splitOnNl content).headD []) =
             some (t, tp) →
           applyShortcutsL content shortcuts =
             expandWithL (splitOnNl content) ((splitOnNl content).headD []) t tp ∧
           (t, tp) ∈ parseRulesL shortcuts ∧
           t.isPrefixOf ((splitOnNl content).headD []) = true ∧ 0 < t.length ∧
           ∀ r ∈ parseRulesL shortcuts,
             r.1.isPrefixOf ((splitOnNl content).headD []) = true →
               r.1.length ≤ t.length)) ∧
    applyShortcuts "@ hello\nworld" "@ -> chat(##param##)" =
      "chat(\"\"\"hello\nworld\"\"\")" := by
  constructor
  · intro content shortcuts
    constructor
    · intro h
      rw [applyShortcutsL_eq_longestMatch, h]
    · intro t tp h
      refine ⟨?_, longestMatchL_spec (parseRulesL shortcuts) _ t tp h⟩
      rw [applyShortcutsL_eq_longestMatch, h]
  · decide

/-- C1 witness: a rule set with no matching nonempty trigger leaves the
content unchanged. -/
theorem applyShortcuts_longest_trigger_wins_witness :
    longestMatchL (parseRulesL "zz -> f(##param##)".data)
        ((splitOnNl "hello".data).headD []) = none ∧
      applyShortcutsL "hello".data "zz -> f(##param##)".data = "hello".data :=
  ⟨by decide,
    (applyShortcuts_longest_trigger_wins.1 "hello".data "zz -> f(##param##)".data).1
      (by decide)⟩

/-- C1 counterexample to the claim as stated: a rule whose trigger is
the empty string is a prefix of the first line (and the longest — the
only — matching trigger), yet `applyShortcuts` returns the content
unchanged instead of applying the rule's expansion. -/
theorem applyShortcuts_empty_trigger_cex :
    parseRulesL "-> f(##param##)".data = [([], "f(##param##)".data)] ∧
    (([] : List Char).isPrefixOf "hello".data = true) ∧
    applyShortcutsL "hello".data "-> f(##param##)".data = "hello".data ∧
    expandWithL (splitOnNl "hello".data) ((splitOnNl "hello".data).headD [])
        [] "f(##param##)".data = "f(\"\"\"hello\"\"\")".data ∧
    "hello".data ≠ "f(\"\"\"hello\"\"\")".data := by
  refine ⟨by decide, by decide, by decide, by decide, by decide⟩

lemma findBlockAux_eq_find (lines : List (List Char)) (cur : Nat) :
    ∀ ds : List Nat,
      findBlockAux lines cur ds =
        ((ds.zip ds.tail).find? (fun p => decide (p.1 ≤ cur) && decide (cur ≤ p.2))).map
          (fun p => (betweenContent lines p.1 p.2, p.1, p.2)) := by
  intro ds
  induction ds with
  | nil => rfl
  | cons a ds ih =>
    cases ds with
    | nil => rfl
    | cons b rest =>
      simp only [List.tail_cons, List.zip_cons_cons]
      by_cases h : a ≤ cur ∧ cur ≤ b
      · rw [findBlockAux, if_pos h]
        have hp : (decide (a ≤ cur) && decide (cur ≤ b)) = true := by
          simp [h.1, h.2]
        rw [List.find?_cons_of_pos ((b :: rest).zip rest) hp]
        rfl
      · rw [findBlockAux, if_neg h]
        have hneg : ¬ ((decide (a ≤ cur) && decide (cur ≤ b)) = true) := by
          simpa using h
        rw [List.find?_cons_of_neg ((b :: rest).zip rest) hneg, ih]
        simp only [List.tail_cons]

lemma collectDelims_mem (lines : List (List Char)) (delim : List Char) (i : Nat) :
    i ∈ collectDelims lines delim ↔
      i < lines.length ∧ isDelimLine (lines.getD i []) (trimJs delim) = true := by
  rw [collectDelims, List.mem_filter, List.mem_range]

lemma range'_map_getD_eq_drop_take (l : List (List Char)) :
    ∀ (k m : Nat), m + k ≤ l.length →
      (List.range' m k).map (fun j => l.getD j []) = (l.drop m).take k := by
  intro k
  induction k with
  | zero => intro m h; simp
  | succ k ih =>
    intro m h
    have hm : m < l.length := by omega
    rw [List.range'_succ, List.map_cons, List.drop_eq_getElem_cons hm, List.take_cons]
    rw [List.getD_eq_getElem l [] hm]
    rw [ih (m + 1) (by omega)]
    · simp
    · omega

/-- C2: the block locator collects exactly the indices of lines that,
after trimming, equal the trimmed delimiter or start with it followed
by further text; it walks consecutive collected-index pairs in order
and returns, for the first pair whose inclusive range contains the
cursor line, the lines strictly between the pair joined with newlines
together with the pair's indices; and on the document
`["%%%","x=1","%%%"]` with cursor line 1 and delimiter `%%%` it
returns content `x=1` with lines 0 and 2. -/
theorem findBlockAtCursor_first_pair :
    (∀ (lines : List (List Char)) (delim : List Char) (i : Nat),
       i ∈ collectDelims lines delim ↔
         i < lines.length ∧ isDelimLine (lines.getD i []) (trimJs delim) = true) ∧
    (∀ (lines : List (List Char)) (cur : Nat) (delim : List Char),
       findBlockAtCursorL lines cur delim =
         if (collectDelims lines delim).length < 2 then none
         else
           (((collectDelims lines delim).zip (collectDelims lines delim).tail).find?
               (fun p => decide (p.1 ≤ cur) && decide (cur ≤ p.2))).map
             (fun p => (betweenContent lines p.1 p.2, p.1, p.2))) ∧
    (∀ (lines : List (List Char)) (a b : Nat), a < b → b ≤ lines.length →
       betweenContent lines a b = joinNl ((lines.drop (a + 1)).take (b - (a + 1)))) ∧
    findBlockAtCursor ["%%%", "x=1", "%%%"] 1 "%%%" = some ("x=1", 0, 2) := by
  refine ⟨collectDelims_mem, ?_, ?_, by decide⟩
  · intro lines cur delim
    simp only [findBlockAtCursorL]
    by_cases h : (collectDelims lines delim).length < 2
    · rw [if_pos h, if_pos h]
    · rw [if_neg h, if_neg h, findBlockAux_eq_find]
  · intro lines a b hab hb
    rw [betweenContent,
      range'_map_getD_eq_drop_take lines (b - (a + 1)) (a + 1) (by omega)]

/-- C2 witness: instantiation of the between-lines characterization on
the scenario document. -/
theorem findBlockAtCursor_first_pair_witness :
    (0 : Nat) < 2 ∧ (2 : Nat) ≤ 3 ∧
      betweenContent ["%%%".data, "x=1".data, "%%%".data] 0 2 =
        joinNl ((["%%%".data, "x=1".data, "%%%".data].drop 1).take 1) :=
  ⟨by decide, by decide,
    findBlockAtCursor_first_pair.2.2.1 ["%%%".data, "x=1".data, "%%%".data] 0 2
      (by decide) (by decide)⟩

/-- C3: with fewer than two collected delimiter lines, or with the
cursor line in no consecutive delimiter pair's inclusive range, the
block locator returns `none`. -/
theorem findBlockAtCursor_no_block :
    ∀ (lines : List (List Char)) (cur : Nat) (delim : List Char),
      ((collectDelims lines delim).length < 2 →
        findBlockAtCursorL lines cur delim = none) ∧
      ((∀ p ∈ (collectDelims lines delim).zip (collectDelims lines delim).tail,
          ¬ (p.1 ≤ cur ∧ cur ≤ p.2)) →
        findBlockAtCursorL lines cur delim = none) := by
  intro lines cur delim
  constructor
  · intro h
    simp only [findBlockAtCursorL]
    rw [if_pos h]
  · intro h
    simp only [findBlockAtCursorL]
    by_cases h2 : (collectDelims lines delim).length < 2
    · rw [if_pos h2]
    · rw [if_neg h2, findBlockAux_eq_find]
      have hn :
          ((collectDelims lines delim).zip (collectDelims lines delim).tail).find?
            (fun p => decide (p.1 ≤ cur) && decide (cur ≤ p.2)) = none := by
        rw [List.find?_eq_none]
        intro p hp
        simpa using h p hp
      rw [hn]
      rfl

/-- C3 witness: one delimiter line only, and a cursor outside the only
pair's range. -/
theorem findBlockAtCursor_no_block_witness :
    (collectDelims ["%%%".data] "%%%".data).length < 2 ∧
    findBlockAtCursorL ["%%%".data] 0 "%%%".data = none ∧
    (∀ p ∈ (collectDelims ["%%%".data, "a".data, "%%%".data, "z".data] "%%%".data).zip
        (collectDelims ["%%%".data, "a".data, "%%%".data, "z".data] "%%%".data).tail,
      ¬ (p.1 ≤ 3 ∧ 3 ≤ p.2)) ∧
    findBlockAtCursorL ["%%%".data, "a".data, "%%%".data, "z".data] 3 "%%%".data = none :=
  ⟨by decide,
    (findBlockAtCursor_no_block ["%%%".data] 0 "%%%".data).1 (by decide),
    by decide,
    (findBlockAtCursor_no_block ["%%%".data, "a".data, "%%%".data, "z".data] 3
      "%%%".data).2 (by decide)⟩

/-- Claim-side view of the header body: the entries of the inner lines
that match the `key: value` pattern, in order, with coerced values. -/
def fmEntries (yaml : List Char) : List (List Char × FmValue) :=
  (splitOnNl yaml).filterMap parseFmLine

lemma foldl_fmLine_filterMap (ls : List (List Char))
    (acc : List (List Char × FmValue)) :
    ls.foldl
      (fun res line =>
        match parseFmLine line with
        | none => res
        | some (k, v) => objInsert res k v) acc =
    (ls.filterMap parseFmLine).foldl (fun res p => objInsert res p.1 p.2) acc := by
  induction ls generalizing acc with
  | nil => rfl
  | cons l ls ih =>
    simp only [List.foldl_cons, List.filterMap_cons]
    cases h : parseFmLine l with
    | none => simp [ih]
    | some p =>
      cases p with
      | mk k v => simp [ih]

lemma objInsert_fresh (m : List (List Char × FmValue)) (k : List Char) (v : FmValue)
    (h : ∀ p ∈ m, p.1 ≠ k) : objInsert m k v = m ++ [(k, v)] := by
  rw [objInsert, if_neg]
  intro hcontra
  rw [List.any_eq_true] at hcontra
  obtain ⟨p, hp, hk⟩ := hcontra
  exact h p hp (by simpa using hk)

lemma foldl_objInsert_append (entries : List (List Char × FmValue)) :
    ∀ acc : List (List Char × FmValue),
      (entries.map Prod.fst).Nodup →
      (∀ p ∈ acc, ∀ q ∈ entries, p.1 ≠ q.1) →
      entries.foldl (fun res p => objInsert res p.1 p.2) acc = acc ++ entries := by
  induction entries with
  | nil => intro acc _ _; simp
  | cons e rest ih =>
    intro acc hnd hdisj
    rw [List.foldl_cons]
    have hfresh : objInsert acc e.1 e.2 = acc ++ [e] := by
      refine objInsert_fresh acc e.1 e.2 ?_
      intro p hp
      exact hdisj p hp e (List.mem_cons_self e rest)
    rw [hfresh]
    rw [List.map_cons, List.nodup_cons] at hnd
    have hrest := ih (acc ++ [e]) hnd.2 ?_
    · rw [hrest, List.append_assoc]
      rfl
    · intro p hp q hq
      rcases List.mem_append.mp hp with hp | hp
      · exact hdisj p hp q (List.mem_cons_of_mem e hq)
      · have hpe : p = e := by simpa using hp
        subst hpe
        intro hcontra
        apply hnd.1
        rw [hcontra]
        exact List.mem_map.mpr ⟨q, hq, rfl⟩

/-- C4 (amended): extraction returns an empty mapping when the text
does not begin with a marker-delimited header; with a header, the
entries are exactly the `key: value` lines in order — one entry per
valid line — provided the keys are distinct (a duplicated key keeps one
entry, the last value); lines not matching the pattern are skipped; and
each value is coerced by the first applicable rule, in order:
quote-unwrapping, boolean literals, nonempty parseable numbers, raw
string. -/
theorem extractFrontmatter_entries :
    (∀ content : List Char,
       ¬ ['-', '-', '-', '\n'].isPrefixOf content = true →
         extractFrontmatterL content = []) ∧
    (∀ content : List Char,
       takeBeforeMarker ['\n', '-', '-', '-'] (content.drop 4) = none →
         extractFrontmatterL content = []) ∧
    (∀ content yaml : List Char,
       ['-', '-', '-', '\n'].isPrefixOf content = true →
       takeBeforeMarker ['\n', '-', '-', '-'] (content.drop 4) = some yaml →
       ((fmEntries yaml).map Prod.fst).Nodup →
         extractFrontmatterL content = fmEntries yaml) ∧
    coerceValue "\"true\"".data = .str "true".data ∧
    coerceValue "'false'".data = .str "false".data ∧
    coerceValue "true".data = .boolean true ∧
    coerceValue "false".data = .boolean false ∧
    coerceValue "42".data = .num ⟨42, 0⟩ ∧
    coerceValue "-2.5e1".data = .num ⟨-25, 0⟩ ∧
    coerceValue "'42'".data = .str "42".data ∧
    coerceValue [] = .str [] ∧
    coerceValue "x y".data = .str "x y".data := by
  refine ⟨?_, ?_, ?_, by decide, by decide, by decide, by decide, by decide,
    by decide, by decide, by decide, by decide⟩
  · intro content h
    rw [extractFrontmatterL, if_neg h]
  · intro content h
    by_cases hpre : ['-', '-', '-', '\n'].isPrefixOf content = true
    · rw [extractFrontmatterL, if_pos hpre, h]
    · rw [extractFrontmatterL, if_neg hpre]
  · intro content yaml hpre htake hnd
    rw [extractFrontmatterL, if_pos hpre, htake]
    show (splitOnNl yaml).foldl
      (fun res line =>
        match parseFmLine line with
        | none => res
        | some (k, v) => objInsert res k v) [] = fmEntries yaml
    rw [foldl_fmLine_filterMap]
    have := foldl_objInsert_append ((splitOnNl yaml).filterMap parseFmLine) []
      (by simpa [fmEntries] using hnd) (by intro p hp; cases hp)
    rw [this, List.nil_append]
    rfl

/-- C4 witness: a one-line header with a single key. -/
theorem extractFrontmatter_entries_witness :
    ['-', '-', '-', '\n'].isPrefixOf "---\nx: 1\n---".data = true ∧
    takeBeforeMarker ['\n', '-', '-', '-'] ("---\nx: 1\n---".data.drop 4) =
      some "x: 1".data ∧
    ((fmEntries "x: 1".data).map Prod.fst).Nodup ∧
    extractFrontmatterL "---\nx: 1\n---".data = fmEntries "x: 1".data :=
  ⟨by decide, by decide, by decide,
    extractFrontmatter_entries.2.2.1 "---\nx: 1\n---".data "x: 1".data
      (by decide) (by decide) (by decide)⟩

/-- C4 counterexample to the claim as stated: a header with two valid
`key: value` lines sharing the key yields one entry, not two. -/
theorem extractFrontmatter_duplicate_keys_cex :
    fmEntries "a: 1\na: 2".data =
      [("a".data, .num ⟨1, 0⟩), ("a".data, .num ⟨2, 0⟩)] ∧
    (fmEntries "a: 1\na: 2".data).length = 2 ∧
    extractFrontmatter "---\na: 1\na: 2\n---" = [("a", .num ⟨2, 0⟩)] ∧
    (extractFrontmatterL "---\na: 1\na: 2\n---".data).length = 1 ∧
    (1 : Nat) ≠ 2 := by
  refine ⟨by decide, by decide, by decide, by decide, by decide⟩

lemma esc3_head (x : Char) (xs : List Char) :
    (esc3 (x :: xs)).head? = some x ∨ (esc3 (x :: xs)).head? = some '\\' := by
  rcases xs with _ | ⟨d, _ | ⟨e, rest⟩⟩
  · exact Or.inl rfl
  · exact Or.inl rfl
  · by_cases h : x = '"' ∧ d = '"' ∧ e = '"'
    · rw [esc3, if_pos h]
      exact Or.inr rfl
    · rw [esc3, if_neg h]
      exact Or.inl rfl

lemma esc3_two_quotes (d e : Char) (rest t : List Char)
    (h : esc3 (d :: e :: rest) = '"' :: '"' :: t) : d = '"' ∧ e = '"' := by
  rcases rest with _ | ⟨f, rest'⟩
  · rw [esc3] at h
    injection h with h1 h2
    injection h2 with h2 _
    exact ⟨h1, h2⟩
  · by_cases hq : d = '"' ∧ e = '"' ∧ f = '"'
    · exact ⟨hq.1, hq.2.1⟩
    · rw [esc3, if_neg hq] at h
      injection h with h1 h2
      refine ⟨h1, ?_⟩
      rcases esc3_head e (f :: rest') with hh | hh <;>
        rw [h2] at hh <;> injection hh with hh
      · exact hh.symm
      · exact absurd hh.symm (by decide)

lemma esc3_no_q3_prefix (xs : List Char) :
    ∀ t : List Char, esc3 xs ≠ '"' :: '"' :: '"' :: t := by
  intro t h
  rcases xs with _ | ⟨c, _ | ⟨d, _ | ⟨e, rest⟩⟩⟩
  · exact absurd h (by simp [esc3])
  · rw [esc3] at h
    injection h with _ h2
    cases h2
  · rw [esc3] at h
    injection h with _ h2
    injection h2 with _ h3
    cases h3
  · by_cases hq : c = '"' ∧ d = '"' ∧ e = '"'
    · rw [esc3, if_pos hq] at h
      injection h with h1 _
      exact absurd h1 (by decide)
    · rw [esc3, if_neg hq] at h
      injection h with h1 h2
      have := esc3_two_quotes d e rest t h2
      exact hq ⟨h1, this.1, this.2⟩

lemma unesc3_cons (c : Char) (X : List Char)
    (h : ¬ (c = '\\' ∧ ∃ t, X = '"' :: '"' :: '"' :: t)) :
    unesc3 (c :: X) = c :: unesc3 X := by
  rcases X with _ | ⟨d, _ | ⟨e, _ | ⟨f, rest⟩⟩⟩
  · rfl
  · rfl
  · rfl
  · by_cases hq : c = '\\' ∧ d = '"' ∧ e = '"' ∧ f = '"'
    · exact absurd ⟨hq.1, rest, by rw [hq.2.1, hq.2.2.1, hq.2.2.2]⟩ h
    · rw [unesc3, if_neg hq]

/-- C9: escaping a parameter (prefixing each left-to-right occurrence
of a triple double quote with a backslash, exactly as `applyShortcuts`
does before substitution) is reversed by removing the inserted
backslashes: `unesc3` recovers every parameter; and on a concrete
shortcut expansion the parameter containing a triple quote is escaped
in the substituted output. -/
theorem esc3_roundtrip :
    (∀ param : List Char, unesc3 (esc3 param) = param) ∧
    applyShortcuts "@ a\"\"\"b" "@ -> f(##param##)" =
      "f(\"\"\"a\\\"\"\"b\"\"\")" := by
  constructor
  · intro param
    induction param using esc3.induct with
    | case1 => rfl
    | case2 c => rfl
    | case3 c d => rfl
    | case4 c d e rest hq ih =>
      rw [esc3, if_pos hq]
      rw [show unesc3 ('\\' :: '"' :: '"' :: '"' :: esc3 rest) =
        '"' :: '"' :: '"' :: unesc3 (esc3 rest) from by rw [unesc3, if_pos (by decide)]]
      rw [ih]
      rw [hq.1, hq.2.1, hq.2.2]
    | case5 c d e rest hq ih =>
      rw [esc3, if_neg hq]
      rw [unesc3_cons c (esc3 (d :: e :: rest)) ?_, ih]
      rintro ⟨hc, t, ht⟩
      exact esc3_no_q3_prefix (d :: e :: rest) t ht
  · decide

/-- C6: a result arriving while the active document differs from the
one recorded at dispatch time mutates nothing — neither a subprocess
output chunk (`processOutput`) nor an in-process evaluation result
(`basicExecute`) touches the state, and no error surfaces (both paths
return normally). -/
theorem stale_results_dropped :
    (∀ (clean : List Char → List Char) (s : OutSettings) (st : PluginState)
       (omitted : Nat) (data : List Char),
       st.activeFile ≠ some st.processingNote →
       (processOutput clean s st omitted data).1 = st) ∧
    (∀ (evalFn : List Char → EvalOutcome) (cmd : List Char) (s : OutSettings)
       (st : PluginState),
       st.activeFile ≠ some st.processingNote →
       basicExecute evalFn cmd s st = st) := by
  constructor
  · intro clean s st omitted data hstale
    rw [processOutput]
    by_cases hom : omitted < s.linesToSuppress
    · rw [if_pos hom]
    · rw [if_neg hom, if_neg (fun hc => hstale hc.2)]
  · intro evalFn cmd s st hstale
    rw [basicExecute]
    cases hout :
        (match evalFn cmd with
          | EvalOutcome.ret v => v
          | EvalOutcome.thrown e => e) with
    | none => rfl
    | some o =>
      simp only
      rw [if_neg hstale]

/-- C6 witness: a result produced for `A.md` arriving while `B.md` is
active leaves the state untouched on both delivery paths. -/
theorem stale_results_dropped_witness :
    (PluginState.mk "A.md".data (some "B.md".data)
        (some ⟨["x".data], 0, 1⟩) []).activeFile ≠
      some (PluginState.mk "A.md".data (some "B.md".data)
        (some ⟨["x".data], 0, 1⟩) []).processingNote ∧
    (processOutput id ⟨true, ">>> ".data, false, 0⟩
        ⟨"A.md".data, some "B.md".data, some ⟨["x".data], 0, 1⟩, []⟩ 0 "out".data).1 =
      ⟨"A.md".data, some "B.md".data, some ⟨["x".data], 0, 1⟩, []⟩ ∧
    basicExecute (fun _ => EvalOutcome.ret (some "v".data)) "cmd".data
        ⟨true, ">>> ".data, false, 0⟩
        ⟨"A.md".data, some "B.md".data, some ⟨["x".data], 0, 1⟩, []⟩ =
      ⟨"A.md".data, some "B.md".data, some ⟨["x".data], 0, 1⟩, []⟩ :=
  ⟨by decide,
    stale_results_dropped.1 id ⟨true, ">>> ".data, false, 0⟩
      ⟨"A.md".data, some "B.md".data, some ⟨["x".data], 0, 1⟩, []⟩ 0 "out".data
      (by decide),
    stale_results_dropped.2 (fun _ => EvalOutcome.ret (some "v".data)) "cmd".data
      ⟨true, ">>> ".data, false, 0⟩
      ⟨"A.md".data, some "B.md".data, some ⟨["x".data], 0, 1⟩, []⟩ (by decide)⟩

/-- C7: the continuation of the asynchronous frontmatter read in the
JSON-protocol branch performs no currency re-check — it always writes
the envelope to the session's stdin, even when the active document at
completion time differs from the one recorded at dispatch time, and it
stamps the envelope with the path active at completion time. -/
theorem jsonContinuation_always_sends :
    (∀ (st : PluginState) (cmd sel content : List Char) (line : Nat),
       jsonProtocolContinuation st cmd sel line content =
         SendOutcome.send
           { command := cmd,
             frontmatter := extractFrontmatterL content,
             context :=
               { notePath := st.activeFile.getD [],
                 cursorLine := line,
                 selectedText := if sel = [] then none else some sel } }) ∧
    jsonProtocolContinuation ⟨"A.md".data, some "B.md".data, none, []⟩
        "cmd".data [] 3 [] =
      SendOutcome.send ⟨"cmd".data, [], ⟨"B.md".data, 3, none⟩⟩ := by
  exact ⟨fun st cmd sel content line => rfl, by decide⟩

/-- C8 (amended): in basic mode a thrown value is captured and its
textual form is inserted into the active document (the fault is not
propagated — execution returns a state normally); an `undefined`
result mutates nothing; but an empty-string result still passes the
`output !== undefined` guard and is inserted. -/
theorem basicExecute_fault_and_undefined :
    (∀ (evalFn : List Char → EvalOutcome) (cmd e : List Char) (s : OutSettings)
       (st : PluginState) (ed : EditorState),
       evalFn cmd = EvalOutcome.thrown (some e) →
       st.activeFile = some st.processingNote →
       st.editor = some ed →
       basicExecute evalFn cmd s st =
         { st with
           editor :=
             some (insertTextEd ed e s.decorateMultiline s.prependOutput s.notice).1,
           statusBar := [] }) ∧
    (∀ (evalFn : List Char → EvalOutcome) (cmd : List Char) (s : OutSettings)
       (st : PluginState),
       evalFn cmd = EvalOutcome.ret none →
       basicExecute evalFn cmd s st = st) := by
  constructor
  · intro evalFn cmd e s st ed heval hcur hed
    rw [basicExecute, heval]
    simp only
    rw [if_pos hcur, hed]
  · intro evalFn cmd s st heval
    rw [basicExecute, heval]

/-- C8 witness: a thrown textual value lands in the document; an
`undefined` result leaves the state unchanged. -/
theorem basicExecute_fault_and_undefined_witness :
    (fun _ : List Char => EvalOutcome.thrown (some "Error: boom".data)) "c".data =
      EvalOutcome.thrown (some "Error: boom".data) ∧
    (PluginState.mk "A.md".data (some "A.md".data) (some ⟨["x".data], 0, 1⟩)
        "busy".data).activeFile =
      some (PluginState.mk "A.md".data (some "A.md".data) (some ⟨["x".data], 0, 1⟩)
        "busy".data).processingNote ∧
    basicExecute (fun _ => EvalOutcome.thrown (some "Error: boom".data)) "c".data
        ⟨true, ">>> ".data, false, 0⟩
        ⟨"A.md".data, some "A.md".data, some ⟨["x".data], 0, 1⟩, "busy".data⟩ =
      { PluginState.mk "A.md".data (some "A.md".data) (some ⟨["x".data], 0, 1⟩)
          "busy".data with
        editor :=
          some (insertTextEd ⟨["x".data], 0, 1⟩ "Error: boom".data true ">>> ".data
            false).1,
        statusBar := [] } ∧
    basicExecute (fun _ => EvalOutcome.ret none) "c".data ⟨true, ">>> ".data, false, 0⟩
        ⟨"A.md".data, some "A.md".data, some ⟨["x".data], 0, 1⟩, "busy".data⟩ =
      ⟨"A.md".data, some "A.md".data, some ⟨["x".data], 0, 1⟩, "busy".data⟩ :=
  ⟨rfl, by decide,
    basicExecute_fault_and_undefined.1 (fun _ => EvalOutcome.thrown (some "Error: boom".data))
      "c".data "Error: boom".data ⟨true, ">>> ".data, false, 0⟩
      ⟨"A.md".data, some "A.md".data, some ⟨["x".data], 0, 1⟩, "busy".data⟩
      ⟨["x".data], 0, 1⟩ rfl (by decide) rfl,
    basicExecute_fault_and_undefined.2 (fun _ => EvalOutcome.ret none) "c".data
      ⟨true, ">>> ".data, false, 0⟩
      ⟨"A.md".data, some "A.md".data, some ⟨["x".data], 0, 1⟩, "busy".data⟩ rfl⟩

/-- C8 counterexample to the claim as stated: an empty-string
evaluation result is not `undefined`, so it passes the guard and the
document is mutated (a prefixed empty output line is inserted). -/
theorem basicExecute_empty_result_cex :
    basicExecute (fun _ => EvalOutcome.ret (some [])) "cmd".data
        ⟨true, ">>> ".data, false, 0⟩
        ⟨"A.md".data, some "A.md".data, some ⟨["start".data], 0, 5⟩, "busy".data⟩ =
      ⟨"A.md".data, some "A.md".data, some ⟨["start".data, ">>> ".data], 1, 4⟩, []⟩ ∧
    (some (EditorState.mk ["start".data, ">>> ".data] 1 4) ≠
      some (EditorState.mk ["start".data] 0 5)) := by
  refine ⟨by decide, by decide⟩

lemma tableLookup_erase_self (t : SessionTable) (k : List Char) :
    tableLookup (tableErase t k) k = none := by
  rw [tableLookup]
  have hfind : (tableErase t k).find? (fun p => p.1 = k) = none := by
    rw [List.find?_eq_none]
    intro p hp
    have := List.of_mem_filter hp
    simpa using this
  rw [hfind]
  rfl

lemma tableKeys_erase_nodup (t : SessionTable) (k : List Char)
    (h : (tableKeys t).Nodup) : (tableKeys (tableErase t k)).Nodup := by
  have hs : List.Sublist (tableKeys (tableErase t k)) (tableKeys t) := by
    simp only [tableKeys, tableErase]
    exact (List.filter_sublist t).map (fun p => p.1)
  exact h.sublist hs

lemma tableKeys_set_nodup (t : SessionTable) (k : List Char) (v : Session)
    (h : (tableKeys t).Nodup) : (tableKeys (tableSet t k v)).Nodup := by
  rw [tableSet]
  by_cases ha : t.any (fun p => p.1 = k) = true
  · rw [if_pos ha]
    have hkeys :
        tableKeys (t.map (fun p => if p.1 = k then (k, v) else p)) = tableKeys t := by
      simp only [tableKeys, List.map_map]
      congr 1
      funext p
      by_cases hk : p.1 = k
      · simp [Function.comp, hk]
      · simp [Function.comp, hk]
    rw [hkeys]
    exact h
  · rw [if_neg ha]
    show (List.map (fun p => p.1) (t ++ [(k, v)])).Nodup
    rw [List.map_append]
    rw [List.nodup_append]
    refine ⟨h, by simp, ?_⟩
    intro x hx
    simp only [List.map_cons, List.map_nil, List.mem_singleton]
    intro hxk
    apply ha
    rw [List.any_eq_true]
    obtain ⟨p, hp, hpx⟩ := List.mem_map.mp hx
    exact ⟨p, hp, by simp [hpx, hxk]⟩

lemma restartTeardown_state_cases (s : SessionSettings) (adv wo tt kt : Bool)
    (k : List Char) (t : SessionTable) :
    (restartTeardown s adv wo tt kt k t).1 = t ∨
      (restartTeardown s adv wo tt kt k t).1 = tableErase t k := by
  rw [restartTeardown]
  by_cases hwo : wo = true
  · rw [if_pos hwo]; exact Or.inl rfl
  · rw [if_neg hwo]
    cases tableLookup t k with
    | none => exact Or.inl rfl
    | some sess =>
      by_cases hadv : adv = true
      · rw [if_pos hadv]; exact Or.inr rfl
      · rw [if_neg hadv]; exact Or.inl rfl

lemma warmup_state_cases (s : SessionSettings) (adv sp : Bool) (k : List Char)
    (t : SessionTable) :
    (warmup s adv sp k t).1 = t ∨
      ∃ v, (warmup s adv sp k t).1 = tableSet t k v := by
  rw [warmup]
  cases tableLookup t k with
  | some sess => exact Or.inl rfl
  | none =>
    by_cases hadv : adv = true
    · rw [if_pos hadv]
      by_cases hsp : sp = true
      · rw [if_pos hsp]; exact Or.inr ⟨Session.external, rfl⟩
      · rw [if_neg hsp]; exact Or.inl rfl
    · rw [if_neg hadv]; exact Or.inr ⟨Session.basic, rfl⟩

lemma warmup_nodup (s : SessionSettings) (adv sp : Bool) (k : List Char)
    (t : SessionTable) (h : (tableKeys t).Nodup) :
    (tableKeys (warmup s adv sp k t).1).Nodup := by
  rcases warmup_state_cases s adv sp k t with hc | ⟨v, hc⟩
  · rw [hc]; exact h
  · rw [hc]; exact tableKeys_set_nodup t k v h

lemma applyOp_nodup (s : SessionSettings) (adv : Bool) (t : SessionTable)
    (op : SMOp) (h : (tableKeys t).Nodup) :
    (tableKeys (applyOp s adv t op)).Nodup := by
  cases op with
  | restart wo tt kt sp k =>
    rw [applyOp, restartCommand]
    rcases restartTeardown_state_cases s adv wo tt kt k t with hc | hc
    · rw [hc]
      exact warmup_nodup s adv sp k t h
    · rw [hc]
      exact warmup_nodup s adv sp k (tableErase t k) (tableKeys_erase_nodup t k h)
  | warm sp k =>
    rw [applyOp]
    exact warmup_nodup s adv sp k t h

lemma runOps_nodup (s : SessionSettings) (adv : Bool) (ops : List SMOp) :
    ∀ t : SessionTable, (tableKeys t).Nodup → (tableKeys (runOps s adv t ops)).Nodup := by
  induction ops with
  | nil => intro t h; exact h
  | cons op ops ih =>
    intro t h
    rw [runOps, List.foldl_cons]
    exact ih (applyOp s adv t op) (applyOp_nodup s adv t op h)

/-- C10: every state of the session table reachable from the empty
table has pairwise distinct keys (at most one live session per key);
warmup is a no-op when a session already exists for the key; and a
restart with a live session first emits the teardown write and the
kill (a kill error is swallowed and changes no state), removes the
record — the lookup is empty at that point — and only then does the
scheduled warmup spawn the replacement, as the event order shows. -/
theorem session_table_at_most_one :
    (∀ (s : SessionSettings) (advanced : Bool) (ops : List SMOp),
       (tableKeys (runOps s advanced [] ops)).Nodup) ∧
    (∀ (s : SessionSettings) (advanced spawnAvailable : Bool) (k : List Char)
       (t : SessionTable) (sess : Session),
       tableLookup t k = some sess →
       warmup s advanced spawnAvailable k t = (t, [])) ∧
    (∀ (s : SessionSettings) (killThrows : Bool) (k : List Char) (t : SessionTable)
       (sess : Session),
       tableLookup t k = some sess →
       (restartTeardown s true false false killThrows k t).1 = tableErase t k ∧
       tableLookup (tableErase t k) k = none ∧
       restartCommand s true false false killThrows true k t =
         (tableSet (tableErase t k) k Session.external,
          ((if s.executeOnUnload ≠ [] then
              [SMEvent.wroteStdin k (s.executeOnUnload ++ ['\n'])]
            else []) ++
           (if killThrows then [] else [SMEvent.killedProc k]) ++
           [SMEvent.removedRecord k]) ++
          (SMEvent.spawnedProc k ::
            (if s.executeOnLoad ≠ [] then
               [SMEvent.wroteStdin k (s.executeOnLoad ++ ['\n'])]
             else [])))) := by
  refine ⟨?_, ?_, ?_⟩
  · intro s advanced ops
    exact runOps_nodup s advanced ops [] (by simp [tableKeys])
  · intro s advanced sp k t sess h
    rw [warmup, h]
  · intro s kt k t sess h
    have htd : restartTeardown s true false false kt k t =
        (tableErase t k,
         (if s.executeOnUnload ≠ [] then
            [SMEvent.wroteStdin k (s.executeOnUnload ++ ['\n'])]
          else []) ++
         (if kt then [] else [SMEvent.killedProc k]) ++
         [SMEvent.removedRecord k]) := by
      cases kt <;> by_cases hu : s.executeOnUnload = [] <;>
        simp [restartTeardown, h, hu]
    refine ⟨by rw [htd], tableLookup_erase_self t k, ?_⟩
    rw [restartCommand, htd]
    simp only
    rw [warmup, tableLookup_erase_self t k]
    rw [if_pos rfl, if_pos rfl]

/-- C10 witness: a live session for key `*` is torn down, removed, and
respawned in that order. -/
theorem session_table_at_most_one_witness :
    tableLookup [("*".data, Session.external)] "*".data = some Session.external ∧
    warmup ⟨"exit()".data, "init".data⟩ true true "*".data
        [("*".data, Session.external)] = ([("*".data, Session.external)], []) ∧
    restartCommand ⟨"exit()".data, "init".data⟩ true false false false true "*".data
        [("*".data, Session.external)] =
      ([("*".data, Session.external)],
       [SMEvent.wroteStdin "*".data "exit()\n".data, SMEvent.killedProc "*".data,
        SMEvent.removedRecord "*".data, SMEvent.spawnedProc "*".data,
        SMEvent.wroteStdin "*".data "init\n".data]) :=
  ⟨by decide,
    session_table_at_most_one.2.1 ⟨"exit()".data, "init".data⟩ true true "*".data
      [("*".data, Session.external)] Session.external (by decide),
    by decide⟩

lemma splitOnNl_ne_nil (l : List Char) : splitOnNl l ≠ [] := by
  cases l with
  | nil => simp [splitOnNl]
  | cons c rest =>
    rw [splitOnNl]
    by_cases h : c = '\n'
    · rw [if_pos h]; simp
    · rw [if_neg h]
      cases splitOnNl rest <;> simp [consHead]

lemma joinNl_cons_cons (p q : List Char) (rest : List (List Char)) :
    joinNl (p :: q :: rest) = p ++ '\n' :: joinNl (q :: rest) := by
  simp [joinNl, List.intercalate, List.intersperse]

lemma joinNl_single (p : List Char) : joinNl [p] = p := by
  simp [joinNl, List.intercalate]

lemma splitOnNl_piece (p : List Char) (xs : List Char) (h : '\n' ∉ p) :
    splitOnNl (p ++ '\n' :: xs) = p :: splitOnNl xs := by
  induction p with
  | nil =>
    rw [List.nil_append, splitOnNl, if_pos rfl]
  | cons c p ih =>
    have hc : c ≠ '\n' := fun hcc => h (hcc ▸ List.mem_cons_self c p)
    have hp : '\n' ∉ p := fun hpp => h (List.mem_cons_of_mem c hpp)
    rw [List.cons_append, splitOnNl, if_neg hc, ih hp]
    rfl

lemma splitOnNl_nlfree (p : List Char) (h : '\n' ∉ p) : splitOnNl p = [p] := by
  induction p with
  | nil => rfl
  | cons c p ih =>
    have hc : c ≠ '\n' := fun hcc => h (hcc ▸ List.mem_cons_self c p)
    have hp : '\n' ∉ p := fun hpp => h (List.mem_cons_of_mem c hpp)
    rw [splitOnNl, if_neg hc, ih hp]
    rfl

lemma splitOnNl_joinNl (ps : List (List Char)) (hne : ps ≠ [])
    (hfree : ∀ p ∈ ps, '\n' ∉ p) : splitOnNl (joinNl ps) = ps := by
  induction ps with
  | nil => exact absurd rfl hne
  | cons p ps ih =>
    cases ps with
    | nil =>
      rw [joinNl_single, splitOnNl_nlfree p (hfree p (List.mem_cons_self p []))]
    | cons q rest =>
      rw [joinNl_cons_cons,
        splitOnNl_piece p _ (hfree p (List.mem_cons_self p _)),
        ih (by simp) (fun x hx => hfree x (List.mem_cons_of_mem p hx))]

lemma joinNl_head_append (x q : List Char) (rest : List (List Char)) :
    joinNl ((x ++ q) :: rest) = x ++ joinNl (q :: rest) := by
  cases rest with
  | nil => rw [joinNl_single, joinNl_single]
  | cons r rest =>
    rw [joinNl_cons_cons, joinNl_cons_cons, List.append_assoc]

lemma intercalate_nl_pfx (pfx : List Char) (p : List Char) (ps : List (List Char)) :
    List.intercalate ('\n' :: pfx) (p :: ps) = joinNl (p :: ps.map (pfx ++ ·)) := by
  induction ps generalizing p with
  | nil => simp [joinNl, List.intercalate]
  | cons q rest ih =>
    have lhs : List.intercalate ('\n' :: pfx) (p :: q :: rest) =
        p ++ '\n' :: (pfx ++ List.intercalate ('\n' :: pfx) (q :: rest)) := by
      simp [List.intercalate, List.intersperse]
    rw [lhs, List.map_cons, joinNl_cons_cons, ih q, joinNl_head_append]

lemma decorAux_nlfree (pfx : List Char) (l : List Char) (h : '\n' ∉ l) :
    decorAux pfx l = l := by
  induction l using decorAux.induct pfx with
  | case1 => rfl
  | case2 c => rfl
  | case3 c d rest hcond ih =>
    exact absurd (hcond.1 ▸ List.mem_cons_of_mem c (List.mem_cons_self d rest)) h
  | case4 c d rest hcond ih =>
    rw [decorAux, if_neg hcond, ih (fun hd => h (List.mem_cons_of_mem c hd))]

lemma allNl_append_false (q x : List Char) (hq : q ≠ []) (hfree : '\n' ∉ q) :
    allNl (q ++ x) = false := by
  cases q with
  | nil => exact absurd rfl hq
  | cons c rest =>
    have hc : c ≠ '\n' := fun hcc => hfree (hcc ▸ List.mem_cons_self c rest)
    rw [List.cons_append, allNl, List.all_cons]
    simp [hc]

lemma decorAux_through (pfx : List Char) (p rest : List Char) (hp : p ≠ [])
    (hfree : '\n' ∉ p) (hlast : p.getLast? ≠ some '\\') (hrest : allNl rest = false) :
    decorAux pfx (p ++ '\n' :: rest) = p ++ '\n' :: (pfx ++ decorAux pfx rest) := by
  induction p with
  | nil => exact absurd rfl hp
  | cons c p ih =>
    cases p with
    | nil =>
      have hc : c ≠ '\\' := by
        intro hcc
        exact hlast (by rw [hcc]; rfl)
      rw [List.cons_append, List.nil_append, decorAux,
        if_pos ⟨rfl, hc, by rw [hrest]; decide⟩]
      rfl
    | cons d p' =>
      have hd : d ≠ '\n' := fun hdd =>
        hfree (hdd ▸ List.mem_cons_of_mem c (List.mem_cons_self d p'))
      have hfree' : '\n' ∉ d :: p' := fun hx => hfree (List.mem_cons_of_mem c hx)
      have hlast' : (d :: p').getLast? ≠ some '\\' := by
        intro hx
        apply hlast
        rw [List.getLast?_cons_cons]
        exact hx
      have hih := ih (by simp) hfree' hlast'
      rw [List.cons_append, List.cons_append, decorAux]
      rw [if_neg (fun hcond => hd hcond.1)]
      rw [List.cons_append] at hih
      rw [hih]
      simp

lemma decorate_eq_decorAux (pfx l : List Char) (h : l.headD ' ' ≠ '\n') :
    decorate pfx l = decorAux pfx l := by
  rw [decorate, if_neg (fun hc => h hc.1)]

lemma headD_append (p x : List Char) (d : Char) (h : p ≠ []) :
    (p ++ x).headD d = p.headD d := by
  cases p with
  | nil => exact absurd rfl h
  | cons c rest => rfl

lemma headD_ne_nl (p : List Char) (hne : p ≠ []) (hfree : '\n' ∉ p) :
    p.headD ' ' ≠ '\n' := by
  cases p with
  | nil => exact absurd rfl hne
  | cons c rest =>
    exact fun hc => hfree (hc ▸ List.mem_cons_self c rest)

lemma intercalate_nl_cons_cons (pfx p q : List Char) (rest : List (List Char)) :
    List.intercalate ('\n' :: pfx) (p :: q :: rest) =
      p ++ '\n' :: (pfx ++ List.intercalate ('\n' :: pfx) (q :: rest)) := by
  simp [List.intercalate, List.intersperse]

lemma joinNl_headD (ps : List (List Char)) (p : List Char) (hne : p ≠ []) :
    (joinNl (p :: ps)).headD ' ' = p.headD ' ' := by
  cases ps with
  | nil => rw [joinNl_single]
  | cons q rest => rw [joinNl_cons_cons, headD_append p _ ' ' hne]

lemma allNl_joinNl_false (q : List Char) (rest : List (List Char))
    (hqne : q ≠ []) (hqfree : '\n' ∉ q) : allNl (joinNl (q :: rest)) = false := by
  cases rest with
  | nil =>
    rw [joinNl_single]
    cases q with
    | nil => exact absurd rfl hqne
    | cons c q' =>
      have hc : c ≠ '\n' := fun hcc => hqfree (hcc ▸ List.mem_cons_self c q')
      simp [allNl, hc]
  | cons r rest' =>
    rw [joinNl_cons_cons]
    exact allNl_append_false q _ hqne hqfree

lemma decorate_clean (pfx : List Char) (ps : List (List Char)) (hne : ps ≠ [])
    (hp : ∀ p ∈ ps, p ≠ [] ∧ '\n' ∉ p ∧ p.getLast? ≠ some '\\') :
    decorate pfx (joinNl ps) = List.intercalate ('\n' :: pfx) ps := by
  induction ps with
  | nil => exact absurd rfl hne
  | cons p ps ih =>
    obtain ⟨hpne, hpfree, hplast⟩ := hp p (List.mem_cons_self p ps)
    have hhead : (joinNl (p :: ps)).headD ' ' ≠ '\n' := by
      rw [joinNl_headD ps p hpne]
      exact headD_ne_nl p hpne hpfree
    cases ps with
    | nil =>
      rw [joinNl_single] at hhead ⊢
      rw [decorate_eq_decorAux pfx p hhead, decorAux_nlfree pfx p hpfree]
      simp [List.intercalate]
    | cons q rest =>
      obtain ⟨hqne, hqfree, _⟩ := hp q (List.mem_cons_of_mem p (List.mem_cons_self q rest))
      have hallnl : allNl (joinNl (q :: rest)) = false :=
        allNl_joinNl_false q rest hqne hqfree
      rw [joinNl_cons_cons] at hhead ⊢
      rw [decorate_eq_decorAux pfx _ hhead]
      rw [decorAux_through pfx p (joinNl (q :: rest)) hpne hpfree hplast hallnl]
      have ihq : decorAux pfx (joinNl (q :: rest)) =
          List.intercalate ('\n' :: pfx) (q :: rest) := by
        have hq2 : (joinNl (q :: rest)).headD ' ' ≠ '\n' := by
          rw [joinNl_headD rest q hqne]
          exact headD_ne_nl q hqne hqfree
        rw [← decorate_eq_decorAux pfx _ hq2]
        exact ih (by simp) (fun x hx => hp x (List.mem_cons_of_mem p hx))
      rw [ihq, intercalate_nl_cons_cons]

lemma stripCr_joinNl (ps : List (List Char)) (hp : ∀ p ∈ ps, '\r' ∉ p) :
    stripCr (joinNl ps) = joinNl ps := by
  rw [stripCr, List.filter_eq_self]
  intro c hc
  induction ps with
  | nil =>
    simp [joinNl, List.intercalate] at hc
  | cons p ps ih =>
    cases ps with
    | nil =>
      rw [joinNl_single] at hc
      have : c ≠ '\r' := fun hcc => hp p (List.mem_cons_self p []) (hcc ▸ hc)
      simpa using this
    | cons q rest =>
      rw [joinNl_cons_cons] at hc
      rcases List.mem_append.mp hc with hc1 | hc1
      · have : c ≠ '\r' := fun hcc => hp p (List.mem_cons_self p _) (hcc ▸ hc1)
        simpa using this
      · rcases List.mem_cons.mp hc1 with hc2 | hc2
        · simp [hc2]
        · exact ih (fun x hx => hp x (List.mem_cons_of_mem p hx)) hc2

lemma joinNl_ne_nil (q : List Char) (rest : List (List Char)) (hq : q ≠ []) :
    joinNl (q :: rest) ≠ [] := by
  cases rest with
  | nil => rw [joinNl_single]; exact hq
  | cons r rest' =>
    rw [joinNl_cons_cons]
    cases q with
    | nil => exact absurd rfl hq
    | cons c q' => simp

lemma joinNl_getLast_ne_nl (ps : List (List Char)) (hne : ps ≠ [])
    (hp : ∀ p ∈ ps, p ≠ [] ∧ '\n' ∉ p) : (joinNl ps).getLast? ≠ some '\n' := by
  induction ps with
  | nil => exact absurd rfl hne
  | cons p ps ih =>
    cases ps with
    | nil =>
      rw [joinNl_single]
      obtain ⟨hpne, hpfree⟩ := hp p (List.mem_cons_self p [])
      rw [List.getLast?_eq_getLast_of_ne_nil hpne]
      intro hcontra
      injection hcontra with hcontra
      exact hpfree (hcontra ▸ List.getLast_mem hpne)
    | cons q rest =>
      obtain ⟨hqne, _⟩ := hp q (List.mem_cons_of_mem p (List.mem_cons_self q rest))
      rw [joinNl_cons_cons]
      rw [List.getLast?_append_of_ne_nil p (by simp)]
      have hjoin := joinNl_ne_nil q rest hqne
      cases hj : joinNl (q :: rest) with
      | nil => exact absurd hj hjoin
      | cons x xs =>
        rw [List.getLast?_cons_cons]
        rw [← hj]
        exact ih (by simp) (fun x hx => hp x (List.mem_cons_of_mem p hx))

lemma stripOneTrailingNl_id (l : List Char) (h : l.getLast? ≠ some '\n') :
    stripOneTrailingNl l = l := by
  rw [stripOneTrailingNl, if_neg h]

lemma spliceEnd_nil (qs : List (List Char)) (h : qs ≠ []) :
    spliceEnd [] qs = qs := by
  induction qs with
  | nil => exact absurd rfl h
  | cons t rest ih =>
    cases rest with
    | nil => simp [spliceEnd]
    | cons u rest' =>
      rw [spliceEnd]
      rw [ih (by simp)]
      simp

lemma splitOnNl_cons_nl (xs : List Char) : splitOnNl ('\n' :: xs) = [] :: splitOnNl xs := by
  rw [splitOnNl, if_pos rfl]

lemma insertAt_full_line (doc : List (List Char)) (L : Nat) (qs : List (List Char))
    (hqs : qs ≠ []) (hfree : ∀ q ∈ qs, '\n' ∉ q) :
    insertAt doc L (doc.getD L []).length ('\n' :: joinNl qs) =
      doc.take L ++ (doc.getD L [] :: qs) ++ doc.drop (L + 1) := by
  rw [insertAt, List.take_length, List.drop_length]
  rw [splitOnNl_cons_nl, splitOnNl_joinNl qs hqs hfree]
  cases qs with
  | nil => exact absurd rfl hqs
  | cons x xs =>
    rw [spliceLines]
    rw [List.append_nil, spliceEnd_nil (x :: xs) (by simp)]
    simp

lemma getD_last (qs : List (List Char)) (h : qs ≠ []) :
    qs.getD (qs.length - 1) [] = qs.getLast h := by
  have hlen : qs.length - 1 < qs.length := by
    have := List.length_pos.mpr h
    omega
  rw [List.getD_eq_getElem qs [] hlen]
  rw [List.getLast_eq_getElem]

lemma spliced_length (doc : List (List Char)) (L : Nat) (qs : List (List Char))
    (hL : L < doc.length) :
    (doc.take L ++ (doc.getD L [] :: qs) ++ doc.drop (L + 1)).length =
      doc.length + qs.length := by
  simp only [List.length_append, List.length_take, List.length_cons, List.length_drop]
  omega

lemma spliced_getD (doc : List (List Char)) (L : Nat) (qs : List (List Char))
    (hqs : qs ≠ []) (hL : L < doc.length) :
    (doc.take L ++ (doc.getD L [] :: qs) ++ doc.drop (L + 1)).getD (L + qs.length) [] =
      qs.getLast hqs := by
  rw [List.append_assoc]
  rw [List.getD_append_right _ _ _ _ (by rw [List.length_take]; omega)]
  have hidx : L + qs.length - (doc.take L).length = qs.length := by
    simp only [List.length_take]
    omega
  rw [hidx]
  rw [List.getD_append _ _ _ _ (by simp)]
  cases qs with
  | nil => exact absurd rfl hqs
  | cons x xs =>
    rw [show (x :: xs).length = xs.length + 1 from rfl, List.getD_cons_succ]
    have hgl := getD_last (x :: xs) (by simp)
    simpa using hgl

lemma getLast_map_pfx (pfx : List Char) (ps : List (List Char)) (hne : ps ≠ [])
    (hne' : ps.map (pfx ++ ·) ≠ []) :
    (ps.map (pfx ++ ·)).getLast hne' = pfx ++ ps.getLast hne := by
  have h1 := List.getLast?_eq_getLast_of_ne_nil hne'
  rw [List.getLast?_map, List.getLast?_eq_getLast_of_ne_nil hne] at h1
  simp only [Option.map_some'] at h1
  injection h1 with h1
  exact h1.symm

lemma insertTextEd_clean (doc : List (List Char)) (L : Nat) (pfx : List Char)
    (ps : List (List Char)) (hne : ps ≠ []) (hL : L < doc.length)
    (hpfx : '\n' ∉ pfx)
    (hp : ∀ p ∈ ps, p ≠ [] ∧ '\n' ∉ p ∧ '\r' ∉ p ∧ p.getLast? ≠ some '\\') :
    insertTextEd ⟨doc, L, (doc.getD L []).length⟩ (joinNl ps) true pfx false =
      (⟨doc.take L ++ (doc.getD L [] :: ps.map (pfx ++ ·)) ++ doc.drop (L + 1),
        L + ps.length, (pfx ++ ps.getLast hne).length⟩, none) := by
  cases ps with
  | nil => exact absurd rfl hne
  | cons p ps' =>
    have hqs : (p :: ps').map (pfx ++ ·) ≠ [] := by simp
    have hqsfree : ∀ q ∈ (p :: ps').map (pfx ++ ·), '\n' ∉ q := by
      intro q hq
      obtain ⟨x, hx, hxq⟩ := List.mem_map.mp hq
      rw [← hxq]
      intro hmem
      rcases List.mem_append.mp hmem with hm | hm
      · exact hpfx hm
      · exact (hp x hx).2.1 hm
    have hclean : cleanedData (joinNl (p :: ps')) true pfx =
        List.intercalate ('\n' :: pfx) (p :: ps') := by
      rw [cleanedData, if_pos rfl,
        stripCr_joinNl (p :: ps') (fun x hx => (hp x hx).2.2.1),
        decorate_clean pfx (p :: ps') (by simp)
          (fun x hx => ⟨(hp x hx).1, (hp x hx).2.1, (hp x hx).2.2.2⟩)]
    have hfree2 : ∀ q ∈ p :: ps'.map (pfx ++ ·), '\n' ∉ q := by
      intro q hq
      rcases List.mem_cons.mp hq with hq1 | hq1
      · rw [hq1]
        exact (hp p (List.mem_cons_self p ps')).2.1
      · obtain ⟨x, hx, hxq⟩ := List.mem_map.mp hq1
        rw [← hxq]
        intro hmem
        rcases List.mem_append.mp hmem with hm | hm
        · exact hpfx hm
        · exact (hp x (List.mem_cons_of_mem p hx)).2.1 hm
    have hne2 : ∀ q ∈ p :: ps'.map (pfx ++ ·), q ≠ [] := by
      intro q hq
      rcases List.mem_cons.mp hq with hq1 | hq1
      · rw [hq1]
        exact (hp p (List.mem_cons_self p ps')).1
      · obtain ⟨x, hx, hxq⟩ := List.mem_map.mp hq1
        rw [← hxq]
        intro hmem
        exact (hp x (List.mem_cons_of_mem p hx)).1 (List.append_eq_nil.mp hmem).2
    have hnotrail : (joinNl (p :: ps'.map (pfx ++ ·))).getLast? ≠ some '\n' :=
      joinNl_getLast_ne_nl _ (by simp) (fun q hq => ⟨hne2 q hq, hfree2 q hq⟩)
    have hbody : insertBody (joinNl (p :: ps')) true pfx =
        '\n' :: joinNl ((p :: ps').map (pfx ++ ·)) := by
      rw [insertBody, hclean, intercalate_nl_pfx, stripOneTrailingNl_id _ hnotrail,
        ← joinNl_head_append]
      simp
    have hcount : insertLineCount (joinNl (p :: ps')) true pfx = ps'.length + 1 := by
      rw [insertLineCount, hclean, intercalate_nl_pfx,
        splitOnNl_joinNl _ (by simp) hfree2]
      simp
    have hins : insertAt doc L (doc.getD L []).length
        (insertBody (joinNl (p :: ps')) true pfx) =
        doc.take L ++ (doc.getD L [] :: (p :: ps').map (pfx ++ ·)) ++ doc.drop (L + 1) := by
      rw [hbody]
      exact insertAt_full_line doc L ((p :: ps').map (pfx ++ ·)) hqs hqsfree
    have hlen : (doc.take L ++ (doc.getD L [] :: (p :: ps').map (pfx ++ ·)) ++
        doc.drop (L + 1)).length = doc.length + (ps'.length + 1) := by
      rw [spliced_length doc L _ hL]
      simp
    have hgetD : (doc.take L ++ (doc.getD L [] :: (p :: ps').map (pfx ++ ·)) ++
        doc.drop (L + 1)).getD (L + (ps'.length + 1)) [] =
        pfx ++ (p :: ps').getLast (by simp) := by
      have h1 : L + (ps'.length + 1) = L + ((p :: ps').map (pfx ++ ·)).length := by simp
      rw [h1, spliced_getD doc L _ hqs hL, getLast_map_pfx pfx (p :: ps') (by simp) hqs]
    have key : insertTextEd ⟨doc, L, (doc.getD L []).length⟩ (joinNl (p :: ps'))
        true pfx false =
        ({ lines := insertAt doc L (doc.getD L []).length
             (insertBody (joinNl (p :: ps')) true pfx),
           cline := min (L + insertLineCount (joinNl (p :: ps')) true pfx)
             ((insertAt doc L (doc.getD L []).length
               (insertBody (joinNl (p :: ps')) true pfx)).length - 1),
           cch := min ((insertAt doc L (doc.getD L []).length
               (insertBody (joinNl (p :: ps')) true pfx)).getD
                 (L + insertLineCount (joinNl (p :: ps')) true pfx) []).length
             ((insertAt doc L (doc.getD L []).length
               (insertBody (joinNl (p :: ps')) true pfx)).getD
                 (min (L + insertLineCount (joinNl (p :: ps')) true pfx)
                   ((insertAt doc L (doc.getD L []).length
                     (insertBody (joinNl (p :: ps')) true pfx)).length - 1)) []).length },
         none) := rfl
    rw [key, hcount, hins, hlen, hgetD]
    have hmin : min (L + (ps'.length + 1)) (doc.length + (ps'.length + 1) - 1) =
        L + (ps'.length + 1) := by omega
    rw [hmin, hgetD]
    simp

/-- C5 (amended): with notice off, carriage returns are dropped and,
with multiline decoration on, every internal line break between
nonempty lines that do not end in a backslash is prefixed with the
configured prefix (a trailing break is not); the inserter places a
leading break plus the prefixed text at the cursor sitting at the end
of a document line; for input with no trailing line break the cursor
ends at the end of the last inserted line; for input with a trailing
break the stripped break is still counted, so the cursor target lies
one line past the last inserted line (clamped to the document end — on
the scenario document the cursor still lands on the last written
line). -/
theorem insertText_decoration_and_cursor :
    (∀ (pfx : List Char) (ps : List (List Char)), ps ≠ [] →
       (∀ p ∈ ps, p ≠ [] ∧ '\n' ∉ p ∧ p.getLast? ≠ some '\\') →
       decorate pfx (joinNl ps) = List.intercalate ('\n' :: pfx) ps) ∧
    (∀ (doc : List (List Char)) (L : Nat) (pfx : List Char)
       (ps : List (List Char)) (hne : ps ≠ []),
       L < doc.length → '\n' ∉ pfx →
       (∀ p ∈ ps, p ≠ [] ∧ '\n' ∉ p ∧ '\r' ∉ p ∧ p.getLast? ≠ some '\\') →
       insertTextEd ⟨doc, L, (doc.getD L []).length⟩ (joinNl ps) true pfx false =
         (⟨doc.take L ++ (doc.getD L [] :: ps.map (pfx ++ ·)) ++ doc.drop (L + 1),
           L + ps.length, (pfx ++ ps.getLast hne).length⟩, none) ∧
       (doc.take L ++ (doc.getD L [] :: ps.map (pfx ++ ·)) ++
           doc.drop (L + 1)).getD (L + ps.length) [] = pfx ++ ps.getLast hne) ∧
    insertBody "a\nb\n".data true ">>> ".data = "\n>>> a\n>>> b".data ∧
    insertBody "a\r\nb".data true ">>> ".data = "\n>>> a\n>>> b".data ∧
    insertLineCount "a\nb\n".data true ">>> ".data = 3 ∧
    insertTextEd ⟨["start".data], 0, 5⟩ "a\nb\n".data true ">>> ".data false =
      (⟨["start".data, ">>> a".data, ">>> b".data], 2, 0⟩, none) := by
  refine ⟨decorate_clean, ?_, by decide, by decide, by decide, by decide⟩
  intro doc L pfx ps hne hL hpfx hp
  refine ⟨insertTextEd_clean doc L pfx ps hne hL hpfx hp, ?_⟩
  have hqs : ps.map (pfx ++ ·) ≠ [] := by
    cases ps with
    | nil => exact absurd rfl hne
    | cons x xs => simp
  have h1 : L + ps.length = L + (ps.map (pfx ++ ·)).length := by simp
  rw [h1, spliced_getD doc L _ hqs hL, getLast_map_pfx pfx ps hne hqs]

/-- C5 witness: inserting two clean lines with no trailing break at the
end of the only document line leaves the cursor at the end of the last
inserted line. -/
theorem insertText_decoration_and_cursor_witness :
    (0 : Nat) < 1 ∧
    insertTextEd ⟨["start".data], 0, 5⟩ (joinNl ["a".data, "b".data]) true
        ">>> ".data false =
      (⟨["start".data, ">>> a".data, ">>> b".data], 2, 5⟩, none) :=
  ⟨by decide,
    by
      have h := (insertText_decoration_and_cursor.2.1 ["start".data] 0 ">>> ".data
        ["a".data, "b".data] (by decide) (by decide) (by decide)
        (by decide)).1
      simpa using h⟩

/-- C5 counterexample to the claim as stated: an internal line break
preceded by a backslash is not prefixed by the decoration pass; and on
input ending in a line break the cursor does not end on the last
inserted line — with a document line below the insertion it lands on
that following line. -/
theorem insertText_claim_cex :
    decorate ">>> ".data "a\\\nb".data = "a\\\nb".data ∧
    "a\\\nb".data ≠ "a\\\n>>> b".data ∧
    insertTextEd ⟨["start".data, "tail".data], 0, 5⟩ "a\nb\n".data true
        ">>> ".data false =
      (⟨["start".data, ">>> a".data, ">>> b".data, "tail".data], 3, 4⟩, none) ∧
    ["start".data, ">>> a".data, ">>> b".data, "tail".data].getD 3 [] =
      "tail".data ∧
    (3 : Nat) ≠ 2 := by
  refine ⟨by decide, by decide, by decide, by decide, by decide⟩
